import Mathlib

/-!
Verification of the saboten biedged-graph → cactus pipeline.

The development shallowly embeds the two source files of the repository,
`src/biedged_to_cactus.rs` and `src/snarls.rs`, together with the parts of
the `BiedgedGraph` support type that those files use.  `BiedgedGraph`
itself (file `biedgedgraph.rs`) is not part of the given sources, so its
operations are modelled from the specification and marked as such in their
doc comments.  Rust `u64` values are modelled as `Nat` (the pipeline never
produces values outside `u64` range from in-range inputs; bit operations
state their masks explicitly where width matters).  Rust hash maps are
modelled as association lists with first-match lookup, and a hash-map
`insert` is modelled by consing the new binding in front.  A Rust function
that can panic (`unwrap` on `None`) is modelled with an `Option` result,
`none` standing for the panic.
-/

/-! ## Embedding of `src/snarls.rs` -/

/-- Association-list lookup with first-match semantics, modelling lookup in
the Rust `BTreeMap` / `FxHashMap` values used by the sources. -/
def alookup {α β : Type} [DecidableEq α] (l : List (α × β)) (k : α) : Option β :=
  match l with
  | [] => none
  | (a, b) :: t => if a = k then some b else alookup t k

/-- A node index for a biedged graph: Rust `struct Node { id: u64 }`. -/
structure Node where
  id : Nat
deriving DecidableEq, Repr

/-- The all-ones-except-bit-zero `u64` mask `!1`. -/
def u64Not1 : Nat := 2 ^ 64 - 2

/-- Rust `Node::opposite`: `self.id ^ 1`. -/
def Node.opposite (n : Node) : Node := ⟨Nat.xor n.id 1⟩

/-- Rust `Node::left`: `self.id & !1`. -/
def Node.left (n : Node) : Node := ⟨Nat.land n.id u64Not1⟩

/-- Rust `Node::right`: `self.id | 1`. -/
def Node.right (n : Node) : Node := ⟨Nat.lor n.id 1⟩

/-- Rust `Node::black_edge`: `let left = self.id & !1; (left, left + 1)`. -/
def Node.black_edge (n : Node) : Node × Node :=
  (⟨Nat.land n.id u64Not1⟩, ⟨Nat.land n.id u64Not1 + 1⟩)

/-- Rust `Node::is_left`: `self.id & 1 == 0`. -/
def Node.is_left (n : Node) : Bool := Nat.land n.id 1 = 0

/-- Rust `Node::is_right`: `self.id & 1 != 0`. -/
def Node.is_right (n : Node) : Bool := Nat.land n.id 1 ≠ 0

/-- Rust `x.min(y)` for the derived `Ord` on `Node` (ordering by `id`). -/
def nmin (a b : Node) : Node := if a.id ≤ b.id then a else b

/-- Rust `x.max(y)` for the derived `Ord` on `Node` (ordering by `id`). -/
def nmax (a b : Node) : Node := if a.id ≤ b.id then b else a

/-- Rust `enum SnarlType`. -/
inductive SnarlType where
  | ChainPair : SnarlType
  | BridgePair : SnarlType
deriving DecidableEq, Repr

/-- Rust `struct Snarl<T>` instantiated, as in the pipeline, at `T = ()`. -/
structure Snarl where
  left : Node
  right : Node
  ty : SnarlType
  data : Unit
deriving DecidableEq, Repr

/-- Rust `Snarl::chain_pair`: canonicalizes the boundary pair. -/
def Snarl.chain_pair (x y : Node) : Snarl :=
  ⟨nmin x y, nmax x y, SnarlType.ChainPair, ()⟩

/-- Rust `Snarl::bridge_pair`: canonicalizes the boundary pair. -/
def Snarl.bridge_pair (x y : Node) : Snarl :=
  ⟨nmin x y, nmax x y, SnarlType.BridgePair, ()⟩

/-- Rust `struct SnarlMap`; the four `FxHashMap` fields are modelled as
association lists with first-match lookup. -/
structure SnarlMap where
  lefts : List (Node × List Nat)
  rights : List (Node × List Nat)
  snarls : List (Nat × Snarl)
  snarlContains : List (Nat × List (Node × Bool))
deriving DecidableEq, Repr

/-- Rust `self.xs.entry(k).or_default().push(v)` on a map to vectors. -/
def pushAt (l : List (Node × List Nat)) (k : Node) (v : Nat) : List (Node × List Nat) :=
  match l with
  | [] => [(k, [v])]
  | (a, vs) :: t => if a = k then (a, vs ++ [v]) :: t else (a, vs) :: pushAt t k v

/-- Rust `SnarlMap::get_snarl_ix`: canonicalize the query pair, look up the
rank lists under each boundary and return the first rank in their
intersection (hash-set iteration is modelled by list order). -/
def SnarlMap.get_snarl_ix (m : SnarlMap) (x y : Node) : Option Nat :=
  match alookup m.lefts (nmin x y), alookup m.rights (nmax x y) with
  | some ls, some rs => (ls.filter (fun i => i ∈ rs)).head?
  | _, _ => none

/-- Rust `SnarlMap::insert`. -/
def SnarlMap.insert (m : SnarlMap) (s : Snarl) : SnarlMap :=
  if (m.get_snarl_ix s.left s.right).isSome then m
  else
    { lefts := pushAt m.lefts s.left m.snarls.length
      rights := pushAt m.rights s.right m.snarls.length
      snarls := (m.snarls.length, s) :: m.snarls
      snarlContains := m.snarlContains }

/-- Rust `SnarlMap::mark_snarl`. -/
def SnarlMap.mark_snarl (m : SnarlMap) (x y bridge : Node) (contains : Bool) :
    Option SnarlMap :=
  match m.get_snarl_ix x y with
  | none => none
  | some ix =>
    let old := (alookup m.snarlContains ix).getD []
    some { m with snarlContains := (ix, (bridge.left, contains) :: old) :: m.snarlContains }

/-- Rust `HashSet::insert` on a set of snarls modelled as a list. -/
def addSnarl (l : List Snarl) (s : Snarl) : List Snarl :=
  if s ∈ l then l else l ++ [s]

/-- Rust `res.entry(b).or_default().insert(sn)` for the result map of
`invert_contains`. -/
def insContains (res : List (Node × List Snarl)) (b : Node) (sn : Snarl) :
    List (Node × List Snarl) :=
  match res with
  | [] => [(b, addSnarl [] sn)]
  | (a, vs) :: t => if a = b then (a, addSnarl vs sn) :: t else (a, vs) :: insContains t b sn

/-- Rust `SnarlMap::invert_contains`; the `unwrap` on a rank that is absent
from `snarls` is modelled by returning `none` (a panic). -/
def SnarlMap.invert_contains (m : SnarlMap) : Option (List (Node × List Snarl)) :=
  m.snarlContains.foldlM
    (fun res p =>
      match alookup m.snarls p.1 with
      | none => none
      | some sn =>
        some (p.2.foldl (fun r q => if q.2 then insContains r q.1 sn else r) res))
    []

/-- Well-formedness of a `SnarlMap`, as established by building it with
`insert` from the empty map: stored snarls are boundary-canonical, every
stored rank is indexed under both of its boundaries, and every indexed
rank points back to a stored snarl with that boundary. -/
def SnarlMap.WFm (m : SnarlMap) : Prop :=
  (∀ p ∈ m.snarls, (p.2).left.id ≤ (p.2).right.id) ∧
  (∀ p ∈ m.snarls, ∃ ls, alookup m.lefts (p.2).left = some ls ∧ p.1 ∈ ls) ∧
  (∀ p ∈ m.snarls, ∃ rs, alookup m.rights (p.2).right = some rs ∧ p.1 ∈ rs) ∧
  (∀ k ls, alookup m.lefts k = some ls →
    ∀ r ∈ ls, ∃ sn, alookup m.snarls r = some sn ∧ sn.left = k) ∧
  (∀ k rs, alookup m.rights k = some rs →
    ∀ r ∈ rs, ∃ sn, alookup m.snarls r = some sn ∧ sn.right = k)

/-! ## Embedding of the `BiedgedGraph` support type (modelled from the spec)
and of `src/biedged_to_cactus.rs` -/

/-- Modelled from the spec: the two-field colour weight `{black, gray}` of a
biedged edge (`BiedgedWeight` lives in the missing `biedgedgraph.rs`). -/
structure BiedgedWeight where
  black : Nat
  gray : Nat
deriving DecidableEq, Repr

/-- Modelled from the spec: a biedged multigraph.  `nodes` lists the declared
vertices, `edges` the stored edge records with their colour multiplicities.
All lookups below sum over every record joining an unordered endpoint pair,
so the record order and orientation never matter semantically. -/
structure BiedgedGraph where
  nodes : List Nat
  edges : List ((Nat × Nat) × BiedgedWeight)
deriving DecidableEq, Repr

/-- An edge record joins the unordered endpoint pair `{u, v}`. -/
def pairMatch (u v : Nat) (e : (Nat × Nat) × BiedgedWeight) : Prop :=
  (e.1.1 = u ∧ e.1.2 = v) ∨ (e.1.1 = v ∧ e.1.2 = u)

instance (u v : Nat) (e : (Nat × Nat) × BiedgedWeight) : Decidable (pairMatch u v e) := by
  unfold pairMatch
  infer_instance

/-- Modelled from the spec: the total colour weight joining endpoints `u`
and `v` (summing parallel records). -/
def weightOf (g : BiedgedGraph) (u v : Nat) : BiedgedWeight :=
  ⟨((g.edges.filter (fun e => pairMatch u v e)).map (fun e => e.2.black)).sum,
   ((g.edges.filter (fun e => pairMatch u v e)).map (fun e => e.2.gray)).sum⟩

/-- Modelled from the spec: `BiedgedGraph::gray_edge_count`, the sum of the
gray multiplicities over all edge records. -/
def grayEdgeCount (g : BiedgedGraph) : Nat :=
  (g.edges.map (fun e => e.2.gray)).sum

/-- Modelled from the spec: `BiedgedGraph::gray_edges()`, the enumeration of
the edge records whose gray count is nonzero, in storage order. -/
def grayEdges (g : BiedgedGraph) : List (Nat × Nat × BiedgedWeight) :=
  g.edges.filterMap (fun e => if 0 < e.2.gray then some (e.1.1, e.1.2, e.2) else none)

/-- Decrement by one the gray weight of the first record joining `{u, v}`
that has positive gray weight. -/
def decGray (u v : Nat) : List ((Nat × Nat) × BiedgedWeight) →
    List ((Nat × Nat) × BiedgedWeight)
  | [] => []
  | e :: t =>
    if pairMatch u v e ∧ 0 < e.2.gray then (e.1, ⟨e.2.black, e.2.gray - 1⟩) :: t
    else e :: decGray u v t

/-- Reroute every record endpoint equal to `gone` to `keep`. -/
def renameTo (keep gone : Nat) (es : List ((Nat × Nat) × BiedgedWeight)) :
    List ((Nat × Nat) × BiedgedWeight) :=
  es.map (fun e =>
    ((if e.1.1 = gone then keep else e.1.1, if e.1.2 = gone then keep else e.1.2), e.2))

/-- Delete the records whose two colour counts are both zero. -/
def dropZeroW (es : List ((Nat × Nat) × BiedgedWeight)) :
    List ((Nat × Nat) × BiedgedWeight) :=
  es.filter (fun e => 0 < e.2.black + e.2.gray)

/-- Modelled from the spec: `BiedgedGraph::contract_edge` as used by the
gray-contraction stage: fail when no record joins the endpoints, otherwise
remove one unit of gray weight from the contracted edge, merge `b` into
`a` (rerouting all of `b`'s incidences and deleting records whose counts
both reached zero), and return the surviving endpoint `a`. -/
def contract_edge (g : BiedgedGraph) (a b : Nat) : Option (BiedgedGraph × Nat) :=
  if (g.edges.filter (fun e => pairMatch a b e)).isEmpty then none
  else
    some ({ nodes := if a = b then g.nodes else g.nodes.filter (fun x => x ≠ b)
            edges := dropZeroW (renameTo a b (decGray a b g.edges)) }, a)

/-- The body of the `while gray_edge_count > 0` loop of
`contract_all_gray_edges`, run with explicit fuel.  Each iteration removes
exactly one unit of gray weight, so `grayEdgeCount g` is an exact bound on
the number of iterations; running out of fuel while gray weight remains
yields `none`.  `none` also models the two `unwrap` panics of the source
(an empty `gray_edges()` enumeration and a failed contraction). -/
def contractGrayLoop (fuel : Nat) (g : BiedgedGraph) (proj : List (Nat × Nat)) :
    Option (BiedgedGraph × List (Nat × Nat)) :=
  match fuel with
  | 0 => if 0 < grayEdgeCount g then none else some (g, proj)
  | fuel + 1 =>
    if 0 < grayEdgeCount g then
      match (grayEdges g).head? with
      | none => none
      | some (a, b, _) =>
        match contract_edge g a b with
        | none => none
        | some (g2, kept) => contractGrayLoop fuel g2 ((b, kept) :: (a, kept) :: proj)
    else some (g, proj)

/-- STEP 1 of the pipeline, `contract_all_gray_edges` from
`biedged_to_cactus.rs`: repeatedly pick the first gray edge and contract
it, recording both endpoints' projections, until no gray weight is left. -/
def contract_all_gray_edges (g : BiedgedGraph) (proj : List (Nat × Nat)) :
    Option (BiedgedGraph × List (Nat × Nat)) :=
  contractGrayLoop (grayEdgeCount g) g proj

/-- Modelled from the spec: `BiedgedGraph::merge_vertices`: merge `v` into
`u` without requiring an edge between them; edges between them become
self-loops at `u`.  Fails when either vertex is absent from the graph. -/
def merge_vertices (g : BiedgedGraph) (u v : Nat) : Option (BiedgedGraph × Nat) :=
  if u ∈ g.nodes ∧ v ∈ g.nodes then
    some ({ nodes := if u = v then g.nodes else g.nodes.filter (fun x => x ≠ v)
            edges := renameTo u v g.edges }, u)
  else none

/-- STEP 2 continuation, `merge_components` from `biedged_to_cactus.rs`:
fuse each component into its first member.  The two `unwrap`s of the
source (an empty component, a failed `merge_vertices`) are modelled by
`none`. -/
def merge_components (g : BiedgedGraph) (components : List (List Nat))
    (proj : List (Nat × Nat)) : Option (BiedgedGraph × List (Nat × Nat)) :=
  components.foldlM
    (fun acc comp =>
      match comp with
      | [] => none
      | head :: rest =>
        rest.foldlM
          (fun acc2 other =>
            match merge_vertices acc2.1 head other with
            | none => none
            | some (g2, prj) => some (g2, (other, prj) :: (head, prj) :: acc2.2))
          acc)
    (g, proj)

/-- A sufficient condition for `merge_components` not to panic: the
components are nonempty, duplicate-free, made of graph vertices, and
pairwise disjoint. -/
def compsOK (g : BiedgedGraph) (components : List (List Nat)) : Prop :=
  (∀ c ∈ components, c ≠ [] ∧ c.Nodup ∧ ∀ x ∈ c, x ∈ g.nodes) ∧
  components.Pairwise (fun c d => ∀ x ∈ c, x ∉ d)

instance (g : BiedgedGraph) (components : List (List Nat)) :
    Decidable (compsOK g components) := by
  unfold compsOK
  infer_instance

/-- The edge multiset handed to the 3-edge-connected-component finder by
`find_3_edge_connected_components`: each record repeated its black
multiplicity. -/
def presentedEdges (g : BiedgedGraph) : List (Nat × Nat) :=
  g.edges.flatMap (fun e => List.replicate e.2.black (e.1.1, e.1.2))

/-- Modelled from the spec: the dense vertex indexing built by the external
`three_edge_connected` crate's `Graph::from_edges` (endpoints in order of
first appearance). -/
def tecVerts (es : List (Nat × Nat)) : List Nat :=
  (es.flatMap (fun p => [p.1, p.2])).dedup

/-- Modelled from the spec: `Graph::invert_components` of the external
`three_edge_connected` crate, mapping dense vertex indices back to the
original endpoint ids. -/
def invert_components (univ : List Nat) (cs : List (List Nat)) : List (List Nat) :=
  cs.map (fun c => c.map (fun i => univ.getD i 0))

/-- STEP 2, `find_3_edge_connected_components` from `biedged_to_cactus.rs`.
The component finder of the external crate is a parameter
(`findComponents`, handed the presented edge multiset); its output in the
dense indexing is filtered to non-singletons and then inverted. -/
def find_3_edge_connected_components (g : BiedgedGraph)
    (findComponents : List (Nat × Nat) → List (List Nat)) : List (List Nat) :=
  invert_components (tecVerts (presentedEdges g))
    ((findComponents (presentedEdges g)).filter (fun c => 1 < c.length))

/-! ## Embedding of `find_cycles` from `src/biedged_to_cactus.rs` -/

/-- The neighbours of `v` examined by the DFS of `find_cycles`, in ascending
endpoint order as the spec requires of `graph.edges(current)`. -/
def adjNbrs (g : BiedgedGraph) (v : Nat) : List Nat :=
  List.insertionSort (· ≤ ·) (g.nodes.dedup.filter (fun u => weightOf g v u ≠ ⟨0, 0⟩))

/-- The mutable state of `find_cycles`: `visited` is the Rust `BTreeSet`
kept in visit order (the set is only ever queried through membership),
`parents` and the stack are as in the source, head of `stack` being its
top. -/
structure FCState where
  visited : List Nat
  parents : List (Nat × Nat)
  stack : List Nat
  cycles : List (List Nat)
  cycleEnds : List (Nat × Nat)
deriving DecidableEq, Repr

/-- The `for (_, adj, weight) in graph.edges(current)` loop body of
`find_cycles`: emit the self-cycles, emit a length-2 cycle on a black
double edge to an unvisited neighbour, push unvisited neighbours
(recording their parent), and record a cycle end for every visited
non-parent neighbour. -/
def visitOne (g : BiedgedGraph) (cur : Nat) (s : FCState) : FCState :=
  (adjNbrs g cur).foldl
    (fun st adj =>
      if adj = cur then
        { st with cycles := st.cycles ++ List.replicate (weightOf g cur cur).black [cur, cur] }
      else if adj ∈ st.visited then
        if alookup st.parents cur ≠ some adj then
          { st with cycleEnds := st.cycleEnds ++ [(adj, cur)] }
        else st
      else
        let st2 :=
          if (weightOf g cur adj).black = 2 then
            { st with cycles := st.cycles ++ [[cur, adj]] }
          else st
        { st2 with stack := adj :: st2.stack, parents := (adj, cur) :: st2.parents })
    s

/-- The vertices the inner DFS loop can ever touch from state `s`. -/
def univFin (g : BiedgedGraph) (s : FCState) : Finset Nat :=
  g.nodes.toFinset ∪ s.stack.toFinset ∪ s.visited.toFinset

/-- Fuel that strictly dominates the number of remaining iterations of the
inner DFS loop from state `s` (each visit burns one unvisited vertex and
pushes at most `g.nodes.dedup.length` entries). -/
def dfsFuel (g : BiedgedGraph) (s : FCState) : Nat :=
  (univFin g s \ s.visited.toFinset).card * (g.nodes.dedup.length + 1) + s.stack.length + 1

/-- The `while let Some(current) = stack.pop()` loop of `find_cycles`, with
explicit fuel (`dfsFuel` is proved sufficient, so the fuel-exhaustion
branch is never reached from `dfsRun`). -/
def dfsLoop (g : BiedgedGraph) : Nat → FCState → FCState
  | 0, s => s
  | fuel + 1, s =>
    match s.stack with
    | [] => s
    | cur :: rest =>
      if cur ∈ s.visited then dfsLoop g fuel { s with stack := rest }
      else dfsLoop g fuel (visitOne g cur { s with stack := rest, visited := s.visited ++ [cur] })

/-- The outer `for node in graph.nodes()` loop of `find_cycles`, starting a
DFS at every not-yet-visited vertex. -/
def dfsRun (g : BiedgedGraph) : FCState :=
  g.nodes.foldl
    (fun s node =>
      if node ∈ s.visited then s
      else dfsLoop g (dfsFuel g { s with stack := node :: s.stack })
        { s with stack := node :: s.stack })
    ⟨[], [], [], [], []⟩

/-- The `while current != start` parent-chasing loop of the cycle
reconstruction of `find_cycles`.  The source loop has no fuel: it spins
forever when a parent lookup fails and cycles forever when the parent
chain revisits a vertex, and it also makes no progress ever reaching
`start` in those cases; `none` models that divergence, and the fuel passed
by `find_cycles` is proved large enough whenever the chain does reach
`start`. -/
def chainToAux (ps : List (Nat × Nat)) (start : Nat) : Nat → Nat → Option (List Nat)
  | 0, cur => if cur = start then some [] else none
  | f + 1, cur =>
    if cur = start then some []
    else
      match alookup ps cur with
      | none => none
      | some p => (chainToAux ps start f p).map (fun l => p :: l)

/-- One reconstructed cycle of `find_cycles`: the vector `vec![end]`
extended by the parent chain up to `start`. -/
def buildCycle (ps : List (Nat × Nat)) (fuel : Nat) (start e : Nat) :
    Option (List Nat) :=
  (chainToAux ps start fuel e).map (fun l => e :: l)

/-- `find_cycles` from `biedged_to_cactus.rs`: the DFS phase followed by the
reconstruction of one cycle per recorded back edge; `none` models a
diverging reconstruction loop. -/
def find_cycles (g : BiedgedGraph) : Option (List (List Nat)) :=
  let s := dfsRun g
  (s.cycleEnds.mapM
      (fun p => buildCycle s.parents (s.parents.length + s.visited.length + 1) p.1 p.2)).map
    (fun extra => s.cycles ++ extra)

/-- The unvisited non-self neighbours of `cur`, in examination order: these
are exactly the vertices `visitOne` pushes (in this order) and assigns
parent `cur`. -/
def freshList (g : BiedgedGraph) (cur : Nat) (visited : List Nat) : List Nat :=
  (adjNbrs g cur).filter (fun a => a ≠ cur ∧ a ∉ visited)

/-- The visited non-self non-parent neighbours of `cur`, in examination
order: these are exactly the back-edge partners `visitOne` records. -/
def backsList (g : BiedgedGraph) (cur : Nat) (visited : List Nat)
    (parents : List (Nat × Nat)) : List Nat :=
  (adjNbrs g cur).filter
    (fun a => a ≠ cur ∧ a ∈ visited ∧ alookup parents cur ≠ some a)

/-- The cycles `visitOne` emits while scanning the neighbours of `cur`. -/
def cycAdds (g : BiedgedGraph) (cur : Nat) (visited : List Nat) : List (List Nat) :=
  (adjNbrs g cur).flatMap
    (fun adj =>
      if adj = cur then List.replicate (weightOf g cur cur).black [cur, cur]
      else if adj ∉ visited ∧ (weightOf g cur adj).black = 2 then [[cur, adj]]
      else [])

/-- `Reaches ps a b`: following parent lookups from `a` arrives at `b`. -/
inductive Reaches (ps : List (Nat × Nat)) : Nat → Nat → Prop where
  | refl (a : Nat) : Reaches ps a a
  | step {a b c : Nat} : alookup ps a = some b → Reaches ps b c → Reaches ps a c

/-- The inductive invariant of the DFS phase of `find_cycles`.  `visited`
is ordered by visit time; a vertex with a parent entry but not yet visited
is called pending.  The key structural clauses: a parent is always an
already-visited vertex of strictly smaller visit time (`parentVis`,
`parentRank`); an unvisited vertex adjacent to a visited one is pending
(`clauseA`); all visited neighbours of a pending vertex are ancestors of
its recorded parent (`clauseB`); every pending vertex is on the stack, and
every unvisited vertex stacked at or above a pending vertex's topmost
entry has a parent that descends from that pending vertex's parent
(`pendStack`, `clauseC`); every recorded cycle end joins a visited vertex
to an ancestor of its parent (`endsOK`); and the cycles recorded so far
are exactly the self-loop and double-black-edge emissions of the visited
region (`selfCyc`, `pairCyc`). -/
structure DfsInv (g : BiedgedGraph) (s : FCState) : Prop where
  nodupV : s.visited.Nodup
  visSub : ∀ x ∈ s.visited, x ∈ g.nodes
  stackSub : ∀ x ∈ s.stack, x ∈ g.nodes
  parentVis : ∀ x q, alookup s.parents x = some q → q ∈ s.visited
  parentRank : ∀ x q, x ∈ s.visited → alookup s.parents x = some q →
    s.visited.indexOf q < s.visited.indexOf x
  clauseA : ∀ x, x ∈ g.nodes → x ∉ s.visited →
    (∃ w, w ∈ adjNbrs g x ∧ w ≠ x ∧ w ∈ s.visited) → (alookup s.parents x).isSome
  clauseB : ∀ x q, x ∉ s.visited → alookup s.parents x = some q →
    ∀ w, w ∈ adjNbrs g x → w ≠ x → w ∈ s.visited → Reaches s.parents q w
  pendStack : ∀ x q, x ∉ s.visited → alookup s.parents x = some q → x ∈ s.stack
  clauseC : ∀ x q, x ∉ s.visited → alookup s.parents x = some q →
    ∀ z i, z ∉ s.visited → i ≤ s.stack.indexOf x → s.stack.get? i = some z →
      ∃ qz, alookup s.parents z = some qz ∧ Reaches s.parents qz q
  endsOK : ∀ p ∈ s.cycleEnds, p.1 ∈ s.visited ∧ p.2 ∈ s.visited ∧ p.1 ≠ p.2 ∧
    p.1 ∈ adjNbrs g p.2 ∧
    ∃ pe, alookup s.parents p.2 = some pe ∧ pe ≠ p.1 ∧ Reaches s.parents pe p.1
  selfCyc : ∀ v, s.cycles.count [v, v] =
    if v ∈ s.visited then (weightOf g v v).black else 0
  pairCyc : ∀ u v, u ≠ v → u ∈ g.nodes → v ∈ g.nodes →
    s.cycles.count [u, v] + s.cycles.count [v, u] =
      if (u ∈ s.visited ∨ v ∈ s.visited) ∧ (weightOf g u v).black = 2 then 1 else 0

theorem alookup_cons {α β : Type} [DecidableEq α] (a : α) (b : β) (t : List (α × β)) (k : α) :
    alookup ((a, b) :: t) k = if a = k then some b else alookup t k := rfl

theorem alookup_append {α β : Type} [DecidableEq α] (l₁ l₂ : List (α × β)) (k : α) :
    alookup (l₁ ++ l₂) k =
      match alookup l₁ k with
      | some b => some b
      | none => alookup l₂ k := by
  induction l₁ with
  | nil => rfl
  | cons p t ih =>
    obtain ⟨a, b⟩ := p
    by_cases h : a = k <;> simp [alookup, h, ih]

theorem alookup_eq_none_of_not_mem_keys {α β : Type} [DecidableEq α]
    {l : List (α × β)} {k : α} (h : k ∉ l.map Prod.fst) : alookup l k = none := by
  induction l with
  | nil => rfl
  | cons p t ih =>
    obtain ⟨a, b⟩ := p
    simp only [List.map_cons, List.mem_cons] at h
    push_neg at h
    simp [alookup, Ne.symm h.1, ih h.2]

theorem land_not1_even (n : Nat) : Nat.land n u64Not1 % 2 = 0 := by
  have h : (Nat.land n u64Not1).testBit 0 = false := by
    show (n &&& u64Not1).testBit 0 = false
    rw [Nat.testBit_land]
    have hm : u64Not1.testBit 0 = false := by decide
    simp [hm]
  simpa [Nat.testBit_zero, Nat.mod_two_eq_zero_or_one] using h

theorem even_add_one_eq_lor (n : Nat) (h : n % 2 = 0) : n + 1 = Nat.lor n 1 := by
  show n + 1 = n ||| 1
  apply Nat.eq_of_testBit_eq
  intro i
  cases i with
  | zero =>
    rw [Nat.testBit_lor]
    simp [Nat.testBit_zero, Nat.add_mod, h]
  | succ j =>
    rw [Nat.testBit_lor]
    have h1 : Nat.testBit 1 (j + 1) = false := by
      simp [Nat.testBit_succ]
    have h2 : (n + 1) / 2 = n / 2 := by omega
    simp [Nat.testBit_succ, h1, h2]

/-- C8: for every endpoint id, `Node::opposite` returns `id XOR 1`,
`Node::left` returns `id AND NOT 1`, and `Node::black_edge` returns the
pair `(left(id), left(id) OR 1)`. -/
theorem node_bit_contract (id : Nat) :
    (Node.opposite ⟨id⟩).id = Nat.xor id 1 ∧
    (Node.left ⟨id⟩).id = Nat.land id u64Not1 ∧
    Node.black_edge ⟨id⟩ = (Node.left ⟨id⟩, ⟨Nat.lor (Node.left ⟨id⟩).id 1⟩) := by
  refine ⟨rfl, rfl, ?_⟩
  unfold Node.black_edge Node.left
  have h := even_add_one_eq_lor (Nat.land id u64Not1) (land_not1_even id)
  rw [h]

theorem alookup_some_mem {α β : Type} [DecidableEq α] {l : List (α × β)} {k : α} {b : β}
    (h : alookup l k = some b) : (k, b) ∈ l := by
  induction l with
  | nil => simp [alookup] at h
  | cons p t ih =>
    obtain ⟨a, v⟩ := p
    by_cases ha : a = k
    · subst ha
      simp [alookup] at h
      simp [h]
    · simp [alookup, ha] at h
      exact List.mem_cons_of_mem _ (ih h)

theorem alookup_pushAt_same (l : List (Node × List Nat)) (k : Node) (v : Nat) :
    alookup (pushAt l k v) k = some ((alookup l k).getD [] ++ [v]) := by
  induction l with
  | nil => simp [pushAt, alookup]
  | cons p t ih =>
    obtain ⟨a, vs⟩ := p
    by_cases ha : a = k
    · subst ha
      simp [pushAt, alookup]
    · simp [pushAt, alookup, ha, ih]

theorem alookup_pushAt_other (l : List (Node × List Nat)) (k k2 : Node) (v : Nat)
    (h : k2 ≠ k) : alookup (pushAt l k v) k2 = alookup l k2 := by
  induction l with
  | nil => simp [pushAt, alookup, Ne.symm h]
  | cons p t ih =>
    obtain ⟨a, vs⟩ := p
    by_cases ha : a = k
    · subst ha
      simp [pushAt, alookup, Ne.symm h]
    · by_cases ha2 : a = k2 <;> simp [pushAt, alookup, ha, ha2, ih, h]

/-- C6: `SnarlMap::insert` leaves the map unchanged when a snarl with the
same canonical `(left, right)` pair is already stored (whatever either
snarl's type is), and otherwise stores the snarl under rank equal to the
current number of snarls and appends that rank to `lefts[s.left]` and
`rights[s.right]`, touching nothing else. -/
theorem snarlMap_insert_spec (m : SnarlMap) (s : Snarl) (hwf : m.WFm) :
    ((∃ r sn, alookup m.snarls r = some sn ∧
        sn.left = nmin s.left s.right ∧ sn.right = nmax s.left s.right) →
      m.insert s = m) ∧
    ((¬ ∃ r sn, alookup m.snarls r = some sn ∧
        sn.left = nmin s.left s.right ∧ sn.right = nmax s.left s.right) →
      (m.insert s).snarls = (m.snarls.length, s) :: m.snarls ∧
      alookup (m.insert s).lefts s.left =
        some ((alookup m.lefts s.left).getD [] ++ [m.snarls.length]) ∧
      alookup (m.insert s).rights s.right =
        some ((alookup m.rights s.right).getD [] ++ [m.snarls.length]) ∧
      (∀ k, k ≠ s.left → alookup (m.insert s).lefts k = alookup m.lefts k) ∧
      (∀ k, k ≠ s.right → alookup (m.insert s).rights k = alookup m.rights k) ∧
      (m.insert s).snarlContains = m.snarlContains) := by
  obtain ⟨hcanon, hleftIx, hrightIx, hleftBack, hrightBack⟩ := hwf
  constructor
  · rintro ⟨r, sn, hlook, hL, hR⟩
    have hmem : (r, sn) ∈ m.snarls := alookup_some_mem hlook
    obtain ⟨ls, hls, hrls⟩ := hleftIx _ hmem
    obtain ⟨rs, hrs, hrrs⟩ := hrightIx _ hmem
    have hrf : r ∈ ls.filter (fun i => i ∈ rs) := by
      simp [List.mem_filter, hrls, hrrs]
    have hne2 : ls.filter (fun i => i ∈ rs) ≠ [] := by
      intro hnil
      rw [hnil] at hrf
      exact (List.not_mem_nil r) hrf
    have hgeq : m.get_snarl_ix s.left s.right = (ls.filter (fun i => i ∈ rs)).head? := by
      unfold SnarlMap.get_snarl_ix
      rw [← hL, ← hR, hls, hrs]
    have hsome : (m.get_snarl_ix s.left s.right).isSome := by
      rw [hgeq, List.head?_eq_head hne2]
      rfl
    unfold SnarlMap.insert
    simp [hsome]
  · intro hno
    have hnone : m.get_snarl_ix s.left s.right = none := by
      by_contra hne
      obtain ⟨r, hr⟩ := Option.ne_none_iff_exists'.mp hne
      unfold SnarlMap.get_snarl_ix at hr
      rcases hL : alookup m.lefts (nmin s.left s.right) with _ | ls <;>
        rcases hR : alookup m.rights (nmax s.left s.right) with _ | rs <;>
          rw [hL, hR] at hr <;> try exact Option.noConfusion hr
      have hr2 : (ls.filter (fun i => i ∈ rs)).head? = some r := hr
      have hrmem : r ∈ ls.filter (fun i => i ∈ rs) :=
        List.mem_of_mem_head? (by simp [hr2])
      rw [List.mem_filter] at hrmem
      obtain ⟨hrls, hrrs⟩ := hrmem
      obtain ⟨sn, hsn, hsnL⟩ := hleftBack _ _ hL r hrls
      obtain ⟨sn2, hsn2, hsnR⟩ := hrightBack _ _ hR r (by simpa using hrrs)
      rw [hsn] at hsn2
      have : sn = sn2 := Option.some.inj hsn2
      subst this
      exact hno ⟨r, sn, hsn, hsnL, hsnR⟩
    unfold SnarlMap.insert
    rw [hnone]
    refine ⟨rfl, ?_, ?_, ?_, ?_, rfl⟩
    · exact alookup_pushAt_same m.lefts s.left m.snarls.length
    · exact alookup_pushAt_same m.rights s.right m.snarls.length
    · intro k hk
      exact alookup_pushAt_other m.lefts s.left k m.snarls.length hk
    · intro k hk
      exact alookup_pushAt_other m.rights s.right k m.snarls.length hk

/-- Witness for C6: inserting a chain pair into the empty snarl map stores
it at rank 0. -/
theorem snarlMap_insert_spec_witness :
    SnarlMap.WFm ⟨[], [], [], []⟩ ∧
    ((⟨[], [], [], []⟩ : SnarlMap).insert (Snarl.chain_pair ⟨0⟩ ⟨1⟩)).snarls =
      [(0, Snarl.chain_pair ⟨0⟩ ⟨1⟩)] := by
  have hwf : SnarlMap.WFm ⟨[], [], [], []⟩ := by
    refine ⟨?_, ?_, ?_, ?_, ?_⟩ <;> simp [alookup]
  refine ⟨hwf, ?_⟩
  have h := (snarlMap_insert_spec ⟨[], [], [], []⟩ (Snarl.chain_pair ⟨0⟩ ⟨1⟩) hwf).2
    (by simp [alookup])
  exact h.1

theorem alookup_eq_some_iff_mem {α β : Type} [DecidableEq α]
    {l : List (α × β)} (hnd : (l.map Prod.fst).Nodup) (k : α) (v : β) :
    alookup l k = some v ↔ (k, v) ∈ l := by
  constructor
  · exact alookup_some_mem
  · intro hmem
    induction l with
    | nil => simp at hmem
    | cons p t ih =>
      obtain ⟨a, b⟩ := p
      simp only [List.map_cons, List.nodup_cons] at hnd
      rcases List.mem_cons.mp hmem with heq | hmt
      · cases heq
        simp [alookup]
      · have hak : a ≠ k := by
          intro hak
          subst hak
          exact hnd.1 (List.mem_map.mpr ⟨(a, v), hmt, rfl⟩)
        simp [alookup, hak, ih hnd.2 hmt]

theorem mem_addSnarl (l : List Snarl) (sn S : Snarl) :
    S ∈ addSnarl l sn ↔ S ∈ l ∨ S = sn := by
  unfold addSnarl
  by_cases h : sn ∈ l
  · simp only [if_pos h]
    constructor
    · exact Or.inl
    · rintro (hs | rfl)
      · exact hs
      · exact h
  · simp [if_neg h]

theorem mem_get_insContains (res : List (Node × List Snarl)) (c : Node) (sn S : Snarl)
    (b : Node) :
    S ∈ (alookup (insContains res c sn) b).getD [] ↔
      S ∈ (alookup res b).getD [] ∨ (S = sn ∧ b = c) := by
  induction res with
  | nil =>
    by_cases hbc : c = b
    · subst hbc
      simp [insContains, alookup, mem_addSnarl]
    · simp only [insContains, alookup, if_neg hbc, Option.getD_none, List.not_mem_nil,
        false_iff, false_or, not_and]
      intro _ h
      exact hbc h.symm
  | cons p t ih =>
    obtain ⟨a, vs⟩ := p
    by_cases hac : a = c
    · subst hac
      by_cases hab : a = b
      · subst hab
        simp [insContains, alookup, mem_addSnarl]
      · simp only [insContains, if_pos rfl, alookup, if_neg hab]
        constructor
        · exact Or.inl
        · rintro (h | ⟨h1, h2⟩)
          · exact h
          · exact absurd h2.symm hab
    · by_cases hab : a = b
      · simp only [insContains, if_neg hac, alookup, if_pos hab]
        constructor
        · exact Or.inl
        · rintro (h | ⟨h1, h2⟩)
          · exact h
          · exact absurd (hab.trans h2) hac
      · simp only [insContains, if_neg hac, alookup, if_neg hab]
        exact ih

theorem mem_get_innerFold (sn : Snarl) (entries : List (Node × Bool))
    (res : List (Node × List Snarl)) (S : Snarl) (b : Node) :
    S ∈ (alookup (entries.foldl
          (fun r q => if q.2 then insContains r q.1 sn else r) res) b).getD [] ↔
      S ∈ (alookup res b).getD [] ∨ (S = sn ∧ (b, true) ∈ entries) := by
  induction entries generalizing res with
  | nil => simp
  | cons q t ih =>
    obtain ⟨q1, q2⟩ := q
    cases q2 with
    | false =>
      have hstep : (if ((q1, false).2 : Bool) then insContains res (q1, false).1 sn else res)
          = res := by simp
      rw [List.foldl_cons, hstep, ih]
      constructor
      · rintro (h | ⟨h1, h2⟩)
        · exact Or.inl h
        · exact Or.inr ⟨h1, List.mem_cons_of_mem _ h2⟩
      · rintro (h | ⟨h1, h2⟩)
        · exact Or.inl h
        · rcases List.mem_cons.mp h2 with heq | hmt
          · exact absurd (congrArg Prod.snd heq) (by simp)
          · exact Or.inr ⟨h1, hmt⟩
    | true =>
      have hstep : (if ((q1, true).2 : Bool) then insContains res (q1, true).1 sn else res)
          = insContains res q1 sn := by simp
      rw [List.foldl_cons, hstep, ih, mem_get_insContains]
      constructor
      · rintro (⟨h | ⟨h1, h2⟩⟩ | ⟨h1, h2⟩)
        · exact Or.inl h
        · subst h2
          exact Or.inr ⟨h1, List.mem_cons_self _ _⟩
        · exact Or.inr ⟨h1, List.mem_cons_of_mem _ h2⟩
      · rintro (h | ⟨h1, h2⟩)
        · exact Or.inl (Or.inl h)
        · rcases List.mem_cons.mp h2 with heq | hmt
          · have hb : b = q1 := congrArg Prod.fst heq
            exact Or.inl (Or.inr ⟨h1, hb⟩)
          · exact Or.inr ⟨h1, hmt⟩

theorem invertFold_spec (snarls : List (Nat × Snarl))
    (L : List (Nat × List (Node × Bool))) (res₀ : List (Node × List Snarl))
    (hranks : ∀ p ∈ L, (alookup snarls p.1).isSome) :
    ∃ res,
      L.foldlM
        (fun res p =>
          match alookup snarls p.1 with
          | none => none
          | some sn =>
            some (p.2.foldl (fun r q => if q.2 then insContains r q.1 sn else r) res))
        res₀ = some res ∧
      ∀ S b, S ∈ (alookup res b).getD [] ↔
        S ∈ (alookup res₀ b).getD [] ∨
          ∃ p ∈ L, alookup snarls p.1 = some S ∧ (b, true) ∈ p.2 := by
  induction L generalizing res₀ with
  | nil =>
    refine ⟨res₀, rfl, ?_⟩
    simp
  | cons p t ih =>
    obtain ⟨hsn, hsnEq⟩ := Option.isSome_iff_exists.mp (hranks p (List.mem_cons_self _ _))
    obtain ⟨res, hres, hmem⟩ := ih
      (p.2.foldl (fun r q => if q.2 then insContains r q.1 hsn else r) res₀)
      (fun q hq => hranks q (List.mem_cons_of_mem _ hq))
    refine ⟨res, ?_, ?_⟩
    · simp only [List.foldlM_cons, hsnEq]
      exact hres
    · intro S b
      rw [hmem, mem_get_innerFold]
      constructor
      · rintro (⟨h | ⟨h1, h2⟩⟩ | ⟨q, hq, hq2, hq3⟩)
        · exact Or.inl h
        · exact Or.inr ⟨p, List.mem_cons_self _ _, by rw [hsnEq, h1], h2⟩
        · exact Or.inr ⟨q, List.mem_cons_of_mem _ hq, hq2, hq3⟩
      · rintro (h | ⟨q, hq, hq2, hq3⟩)
        · exact Or.inl (Or.inl h)
        · rcases List.mem_cons.mp hq with heq | hmt
          · subst heq
            rw [hsnEq] at hq2
            exact Or.inl (Or.inr ⟨(Option.some.inj hq2).symm, hq3⟩)
          · exact Or.inr ⟨q, hmt, hq2, hq3⟩

/-- C7: a snarl `S` is a member of `invert_contains()[b]` exactly when some
rank `r` has `snarls[r] = S` and `snarl_contains[r][b] = true`.  The
hypotheses state the `FxHashMap` key-uniqueness invariants of the involved
maps and that every rank appearing in `snarl_contains` is a stored rank
(otherwise `invert_contains` panics on its `unwrap`). -/
theorem invert_contains_spec (m : SnarlMap)
    (hkeys : (m.snarlContains.map Prod.fst).Nodup)
    (hinner : ∀ p ∈ m.snarlContains, (p.2.map Prod.fst).Nodup)
    (hranks : ∀ p ∈ m.snarlContains, (alookup m.snarls p.1).isSome) :
    ∃ res, m.invert_contains = some res ∧
      ∀ S b, S ∈ (alookup res b).getD [] ↔
        ∃ r cm, alookup m.snarlContains r = some cm ∧
          alookup m.snarls r = some S ∧ alookup cm b = some true := by
  obtain ⟨res, hres, hmem⟩ := invertFold_spec m.snarls m.snarlContains [] hranks
  refine ⟨res, hres, ?_⟩
  intro S b
  rw [hmem]
  simp only [alookup, Option.getD_none, List.not_mem_nil, false_or]
  constructor
  · rintro ⟨p, hp, hp2, hp3⟩
    exact ⟨p.1, p.2, (alookup_eq_some_iff_mem hkeys p.1 p.2).mpr hp, hp2,
      (alookup_eq_some_iff_mem (hinner p hp) b true).mpr hp3⟩
  · rintro ⟨r, cm, h1, h2, h3⟩
    have hp : (r, cm) ∈ m.snarlContains := alookup_some_mem h1
    exact ⟨(r, cm), hp, h2, alookup_some_mem h3⟩

/-- Witness for C7 on a one-snarl map: the snarl stored at rank 0 is listed
under the black edge it contains. -/
theorem invert_contains_spec_witness :
    ∃ res,
      SnarlMap.invert_contains
        ⟨[(⟨0⟩, [0])], [(⟨3⟩, [0])], [(0, Snarl.chain_pair ⟨0⟩ ⟨3⟩)],
          [(0, [(⟨4⟩, true), (⟨6⟩, false)])]⟩ = some res ∧
      Snarl.chain_pair ⟨0⟩ ⟨3⟩ ∈ (alookup res ⟨4⟩).getD [] := by
  obtain ⟨res, hres, hmem⟩ := invert_contains_spec
    ⟨[(⟨0⟩, [0])], [(⟨3⟩, [0])], [(0, Snarl.chain_pair ⟨0⟩ ⟨3⟩)],
      [(0, [(⟨4⟩, true), (⟨6⟩, false)])]⟩
    (by decide) (by decide) (by decide)
  refine ⟨res, hres, ?_⟩
  rw [hmem]
  refine ⟨0, [(⟨4⟩, true), (⟨6⟩, false)], by decide, by decide, by decide⟩

/-! ## Stage 1: gray contraction (C1) -/

theorem graySum_decGray (u v : Nat) (es : List ((Nat × Nat) × BiedgedWeight))
    (h : ∃ e ∈ es, pairMatch u v e ∧ 0 < e.2.gray) :
    ((decGray u v es).map (fun e => e.2.gray)).sum + 1 = (es.map (fun e => e.2.gray)).sum := by
  induction es with
  | nil => simp at h
  | cons e t ih =>
    by_cases hc : pairMatch u v e ∧ 0 < e.2.gray
    · simp only [decGray, if_pos hc, List.map_cons, List.sum_cons]
      omega
    · simp only [decGray, if_neg hc, List.map_cons, List.sum_cons]
      obtain ⟨e2, he2, hm⟩ := h
      rcases List.mem_cons.mp he2 with rfl | ht
      · exact absurd hm hc
      · have := ih ⟨e2, ht, hm⟩
        omega

theorem graySum_renameTo (keep gone : Nat) (es : List ((Nat × Nat) × BiedgedWeight)) :
    ((renameTo keep gone es).map (fun e => e.2.gray)).sum = (es.map (fun e => e.2.gray)).sum := by
  unfold renameTo
  rw [List.map_map]
  rfl

theorem graySum_dropZeroW (es : List ((Nat × Nat) × BiedgedWeight)) :
    ((dropZeroW es).map (fun e => e.2.gray)).sum = (es.map (fun e => e.2.gray)).sum := by
  induction es with
  | nil => rfl
  | cons e t ih =>
    unfold dropZeroW at ih ⊢
    rw [List.filter_cons]
    by_cases hc : 0 < e.2.black + e.2.gray
    · rw [if_pos (by simpa using hc)]
      simp only [List.map_cons, List.sum_cons, ih]
    · rw [if_neg (by simpa using hc)]
      have hg : e.2.gray = 0 := by omega
      simp only [List.map_cons, List.sum_cons, ih, hg, Nat.zero_add]

theorem grayEdges_head_mem {g : BiedgedGraph} {a b : Nat} {w : BiedgedWeight}
    (h : (grayEdges g).head? = some (a, b, w)) :
    ((a, b), w) ∈ g.edges ∧ 0 < w.gray := by
  have hmem : (a, b, w) ∈ grayEdges g := List.mem_of_mem_head? (by simp [h])
  unfold grayEdges at hmem
  rw [List.mem_filterMap] at hmem
  obtain ⟨e, he, hif⟩ := hmem
  by_cases hg : 0 < e.2.gray
  · rw [if_pos hg] at hif
    obtain ⟨h1, h2, h3⟩ : e.1.1 = a ∧ e.1.2 = b ∧ e.2 = w := by
      have := Option.some.inj hif
      exact ⟨congrArg (fun x => x.1) this,
        congrArg (fun x => x.2.1) this, congrArg (fun x => x.2.2) this⟩
    constructor
    · have : ((a, b), w) = e := by
        rw [← h1, ← h2, ← h3]
      rw [this]
      exact he
    · rw [← h3]
      exact hg
  · rw [if_neg hg] at hif
    exact Option.noConfusion hif

theorem grayEdges_ne_nil_of_count_pos {g : BiedgedGraph}
    (h : 0 < grayEdgeCount g) : grayEdges g ≠ [] := by
  intro hnil
  have hall : ∀ e ∈ g.edges, e.2.gray = 0 := by
    intro e he
    have := List.filterMap_eq_nil.mp hnil e he
    by_cases hg : 0 < e.2.gray
    · rw [if_pos hg] at this
      exact Option.noConfusion this
    · omega
  have hz : grayEdgeCount g = 0 := by
    unfold grayEdgeCount
    rw [List.sum_eq_zero]
    intro x hx
    rw [List.mem_map] at hx
    obtain ⟨e, he, rfl⟩ := hx
    exact hall e he
  omega

theorem contract_edge_gray_dec {g : BiedgedGraph} {a b : Nat} {w : BiedgedWeight}
    (hmem : ((a, b), w) ∈ g.edges) (hw : 0 < w.gray) :
    ∃ g2, contract_edge g a b = some (g2, a) ∧ grayEdgeCount g2 + 1 = grayEdgeCount g := by
  have hpm : pairMatch a b ((a, b), w) := Or.inl ⟨rfl, rfl⟩
  have hne : ¬ (g.edges.filter (fun e => pairMatch a b e)).isEmpty := by
    rw [List.isEmpty_iff]
    intro hnil
    have : ((a, b), w) ∈ g.edges.filter (fun e => pairMatch a b e) := by
      rw [List.mem_filter]
      exact ⟨hmem, by simpa using hpm⟩
    rw [hnil] at this
    exact (List.not_mem_nil _) this
  refine ⟨⟨if a = b then g.nodes else g.nodes.filter (fun x => x ≠ b),
      dropZeroW (renameTo a b (decGray a b g.edges))⟩, ?_, ?_⟩
  · unfold contract_edge
    rw [if_neg hne]
  · show grayEdgeCount
      ⟨if a = b then g.nodes else g.nodes.filter (fun x => x ≠ b),
        dropZeroW (renameTo a b (decGray a b g.edges))⟩ + 1 = grayEdgeCount g
    unfold grayEdgeCount
    simp only
    rw [graySum_dropZeroW, graySum_renameTo]
    exact graySum_decGray a b g.edges ⟨((a, b), w), hmem, hpm, hw⟩

theorem contractGrayLoop_total : ∀ (fuel : Nat) (g : BiedgedGraph) (proj : List (Nat × Nat)),
    grayEdgeCount g ≤ fuel →
    ∃ g2 p2, contractGrayLoop fuel g proj = some (g2, p2) ∧ grayEdgeCount g2 = 0 := by
  intro fuel
  induction fuel with
  | zero =>
    intro g proj hle
    have hz : grayEdgeCount g = 0 := Nat.le_zero.mp hle
    refine ⟨g, proj, ?_, hz⟩
    unfold contractGrayLoop
    rw [if_neg (by omega)]
  | succ f ih =>
    intro g proj hle
    by_cases hpos : 0 < grayEdgeCount g
    · obtain ⟨x, hx⟩ := Option.ne_none_iff_exists'.mp
        (fun hnone => grayEdges_ne_nil_of_count_pos hpos (List.head?_eq_none_iff.mp hnone))
      obtain ⟨a, b, w⟩ := x
      obtain ⟨hmem, hw⟩ := grayEdges_head_mem hx
      obtain ⟨g2, hc, hdec⟩ := contract_edge_gray_dec hmem hw
      obtain ⟨g3, p3, hrec, hzero⟩ := ih g2 ((b, a) :: (a, a) :: proj) (by omega)
      refine ⟨g3, p3, ?_, hzero⟩
      show contractGrayLoop (f + 1) g proj = some (g3, p3)
      unfold contractGrayLoop
      rw [if_pos hpos, hx]
      show (match contract_edge g a b with
            | none => none
            | some (g2, kept) => contractGrayLoop f g2 ((b, kept) :: (a, kept) :: proj)) =
          some (g3, p3)
      rw [hc]
      exact hrec
    · refine ⟨g, proj, ?_, by omega⟩
      show contractGrayLoop (f + 1) g proj = some (g, proj)
      unfold contractGrayLoop
      rw [if_neg hpos]

/-- C1: `contract_all_gray_edges` terminates on every finite biedged graph
(the loop runs exactly `grayEdgeCount g` iterations, the fuel used in the
embedding, and never hits an `unwrap` panic), and the resulting graph has
`gray_edge_count() == 0`. -/
theorem contract_all_gray_edges_gray_zero (g : BiedgedGraph) (proj : List (Nat × Nat)) :
    ∃ g2 p2, contract_all_gray_edges g proj = some (g2, p2) ∧ grayEdgeCount g2 = 0 :=
  contractGrayLoop_total (grayEdgeCount g) g proj (Nat.le_refl _)

/-! ## Stage 2: 3-edge-connected components (C2) and merging (C10) -/

theorem count_presentedEdges (g : BiedgedGraph) (p : Nat × Nat) :
    (presentedEdges g).count p =
      ((g.edges.filter (fun e => e.1 = p)).map (fun e => e.2.black)).sum := by
  unfold presentedEdges
  induction g.edges with
  | nil => rfl
  | cons e t ih =>
    rw [List.flatMap_cons, List.count_append, ih, List.filter_cons]
    by_cases hp : e.1 = p
    · rw [if_pos (by simpa using hp)]
      simp only [List.map_cons, List.sum_cons]
      have hpe : (e.1.1, e.1.2) = p := hp
      rw [hpe, List.count_replicate_self]
    · rw [if_neg (by simpa using hp)]
      have hcz : (List.replicate e.2.black (e.1.1, e.1.2)).count p = 0 := by
        apply List.count_eq_zero_of_not_mem
        rw [List.mem_replicate]
        rintro ⟨-, h⟩
        exact hp (show e.1 = p from h.symm)
      rw [hcz]
      omega

theorem blackSum_filter_or (es : List ((Nat × Nat) × BiedgedWeight))
    (p q : (Nat × Nat) × BiedgedWeight → Prop) [DecidablePred p] [DecidablePred q]
    (hdisj : ∀ e ∈ es, ¬ (p e ∧ q e)) :
    ((es.filter (fun e => p e ∨ q e)).map (fun e => e.2.black)).sum =
      ((es.filter (fun e => p e)).map (fun e => e.2.black)).sum +
      ((es.filter (fun e => q e)).map (fun e => e.2.black)).sum := by
  induction es with
  | nil => rfl
  | cons e t ih =>
    have iht := ih (fun x hx => hdisj x (List.mem_cons_of_mem _ hx))
    have hde := hdisj e (List.mem_cons_self _ _)
    rw [List.filter_cons, List.filter_cons, List.filter_cons]
    by_cases hp : p e
    · rw [if_pos (by simp [hp]), if_pos (by simpa using hp),
        if_neg (by simpa using fun hq => hde ⟨hp, hq⟩)]
      simp only [List.map_cons, List.sum_cons, iht]
      omega
    · by_cases hq : q e
      · rw [if_pos (by simp [hq]), if_neg (by simpa using hp), if_pos (by simpa using hq)]
        simp only [List.map_cons, List.sum_cons, iht]
        omega
      · rw [if_neg (by simpa using fun h : p e ∨ q e => h.elim hp hq),
          if_neg (by simpa using hp), if_neg (by simpa using hq)]
        exact iht

/-- C2: `find_3_edge_connected_components` presents the graph's edges to the
component finder as a multiset in which every unordered endpoint pair
occurs exactly its total black multiplicity many times (so pairs of black
multiplicity 0 are omitted), and every component of the returned list has
more than one entry, whatever component finder is plugged in. -/
theorem find_3ecc_presentation (g : BiedgedGraph)
    (findComponents : List (Nat × Nat) → List (List Nat)) :
    (∀ a : Nat, (presentedEdges g).count (a, a) = (weightOf g a a).black) ∧
    (∀ a b : Nat, a ≠ b →
      (presentedEdges g).count (a, b) + (presentedEdges g).count (b, a) =
        (weightOf g a b).black) ∧
    (∀ c ∈ find_3_edge_connected_components g findComponents, 1 < c.length) := by
  refine ⟨?_, ?_, ?_⟩
  · intro a
    rw [count_presentedEdges]
    unfold weightOf
    simp only
    congr 1
    congr 1
    apply List.filter_congr
    intro e _
    have : pairMatch a a e ↔ e.1 = (a, a) := by
      unfold pairMatch
      constructor
      · rintro (⟨h1, h2⟩ | ⟨h1, h2⟩) <;> exact Prod.ext h1 h2
      · intro h
        exact Or.inl ⟨congrArg Prod.fst h, congrArg Prod.snd h⟩
    simp [this]
  · intro a b hab
    rw [count_presentedEdges, count_presentedEdges]
    unfold weightOf
    simp only
    have hsplit := blackSum_filter_or g.edges
      (fun e => e.1 = (a, b)) (fun e => e.1 = (b, a))
      (by
        intro e he hpq
        have h1 : e.1 = (a, b) := hpq.1
        have h2 : e.1 = (b, a) := hpq.2
        exact hab (congrArg Prod.fst (h1.symm.trans h2)))
    rw [← hsplit]
    congr 1
    congr 1
    apply List.filter_congr
    intro e _
    have : pairMatch a b e ↔ (e.1 = (a, b) ∨ e.1 = (b, a)) := by
      unfold pairMatch
      constructor
      · rintro (⟨h1, h2⟩ | ⟨h1, h2⟩)
        · exact Or.inl (Prod.ext h1 h2)
        · exact Or.inr (Prod.ext h1 h2)
      · rintro (h | h)
        · exact Or.inl ⟨congrArg Prod.fst h, congrArg Prod.snd h⟩
        · exact Or.inr ⟨congrArg Prod.fst h, congrArg Prod.snd h⟩
    simp [this]
  · intro c hc
    unfold find_3_edge_connected_components invert_components at hc
    rw [List.mem_map] at hc
    obtain ⟨c0, hc0, rfl⟩ := hc
    rw [List.mem_filter] at hc0
    have := hc0.2
    simp only [List.length_map]
    simpa using this

/-- Witness for C2 at a two-vertex graph with a black double edge. -/
theorem find_3ecc_presentation_witness :
    (0 : Nat) ≠ 1 ∧
    (presentedEdges ⟨[0, 1], [((0, 1), ⟨2, 0⟩)]⟩).count (0, 1) +
      (presentedEdges ⟨[0, 1], [((0, 1), ⟨2, 0⟩)]⟩).count (1, 0) =
      (weightOf ⟨[0, 1], [((0, 1), ⟨2, 0⟩)]⟩ 0 1).black :=
  ⟨by decide,
    (find_3ecc_presentation ⟨[0, 1], [((0, 1), ⟨2, 0⟩)]⟩ (fun _ => [])).2.1 0 1 (by decide)⟩

theorem merge_inner_total (head : Nat) :
    ∀ (rest : List Nat) (g : BiedgedGraph) (proj : List (Nat × Nat)),
    head ∈ g.nodes → (∀ x ∈ rest, x ∈ g.nodes) → head ∉ rest → rest.Nodup →
    ∃ g2 p2,
      rest.foldlM
        (fun acc2 other =>
          match merge_vertices acc2.1 head other with
          | none => none
          | some (g3, prj) => some (g3, (other, prj) :: (head, prj) :: acc2.2))
        (g, proj) = some (g2, p2) ∧
      ∀ y, y ∈ g2.nodes ↔ y ∈ g.nodes ∧ y ∉ rest := by
  intro rest
  induction rest with
  | nil =>
    intro g proj hh _ _ _
    refine ⟨g, proj, rfl, ?_⟩
    simp
  | cons other rest2 ih =>
    intro g proj hh hmem hnh hnd
    have hother : other ∈ g.nodes := hmem other (List.mem_cons_self _ _)
    have hho : head ≠ other := fun h => hnh (h ▸ List.mem_cons_self _ _)
    have hmv : merge_vertices g head other =
        some (⟨g.nodes.filter (fun x => x ≠ other), renameTo head other g.edges⟩, head) := by
      unfold merge_vertices
      rw [if_pos ⟨hh, hother⟩, if_neg hho]
    have hnodes2 : ∀ y, y ∈ (BiedgedGraph.mk (g.nodes.filter (fun x => x ≠ other))
        (renameTo head other g.edges)).nodes ↔ y ∈ g.nodes ∧ y ≠ other := by
      intro y
      simp [List.mem_filter]
    rw [List.nodup_cons] at hnd
    obtain ⟨g2, p2, hfold, hiff⟩ := ih
      ⟨g.nodes.filter (fun x => x ≠ other), renameTo head other g.edges⟩
      ((other, head) :: (head, head) :: proj)
      ((hnodes2 head).mpr ⟨hh, hho⟩)
      (fun x hx => (hnodes2 x).mpr
        ⟨hmem x (List.mem_cons_of_mem _ hx), fun hxo => hnd.1 (hxo ▸ hx)⟩)
      (fun hx => hnh (List.mem_cons_of_mem _ hx))
      hnd.2
    refine ⟨g2, p2, ?_, ?_⟩
    · rw [List.foldlM_cons, hmv]
      exact hfold
    · intro y
      rw [hiff y, hnodes2 y]
      simp only [List.mem_cons]
      constructor
      · rintro ⟨⟨h1, h2⟩, h3⟩
        exact ⟨h1, by
          push_neg
          exact ⟨h2, h3⟩⟩
      · rintro ⟨h1, h2⟩
        push_neg at h2
        exact ⟨⟨h1, h2.1⟩, h2.2⟩

theorem merge_components_total (components : List (List Nat)) :
    ∀ (g : BiedgedGraph) (proj : List (Nat × Nat)), compsOK g components →
    ∃ g2 p2, merge_components g components proj = some (g2, p2) := by
  induction components with
  | nil =>
    intro g proj _
    exact ⟨g, proj, rfl⟩
  | cons c t ih =>
    intro g proj hok
    obtain ⟨hall, hpw⟩ := hok
    obtain ⟨hne, hnd, hsub⟩ := hall c (List.mem_cons_self _ _)
    obtain ⟨head, rest, rfl⟩ := List.exists_cons_of_ne_nil hne
    rw [List.nodup_cons] at hnd
    obtain ⟨g2, p2, hfold, hiff⟩ := merge_inner_total head rest g proj
      (hsub head (List.mem_cons_self _ _))
      (fun x hx => hsub x (List.mem_cons_of_mem _ hx))
      hnd.1 hnd.2
    rw [List.pairwise_cons] at hpw
    have hok2 : compsOK g2 t := by
      constructor
      · intro c2 hc2
        obtain ⟨hne2, hnd2, hsub2⟩ := hall c2 (List.mem_cons_of_mem _ hc2)
        refine ⟨hne2, hnd2, ?_⟩
        intro x hx
        rw [hiff x]
        refine ⟨hsub2 x hx, ?_⟩
        intro hxr
        exact hpw.1 c2 hc2 x (List.mem_cons_of_mem _ hxr) hx
      · exact hpw.2
    obtain ⟨g3, p3, hrec⟩ := ih g2 p2 hok2
    refine ⟨g3, p3, ?_⟩
    unfold merge_components at hrec ⊢
    rw [List.foldlM_cons]
    show (Option.bind
        (rest.foldlM
          (fun acc2 other =>
            match merge_vertices acc2.1 head other with
            | none => none
            | some (g3, prj) => some (g3, (other, prj) :: (head, prj) :: acc2.2))
          (g, proj))
        fun acc => t.foldlM _ acc) = some (g3, p3)
    rw [hfold]
    exact hrec

/-- Counterexample for C10: `merge_components` on a component list holding
an empty component panics (the `iter.next().unwrap()` of the source, `none`
in the embedding) instead of completing or returning an error value. -/
theorem merge_components_panic_cex :
    merge_components ⟨[], []⟩ [[]] [] = none := rfl

/-- C10 as amended: `contract_all_gray_edges` always completes successfully
(as does `find_3_edge_connected_components`, which is total by its type),
and `merge_components` completes successfully whenever its components are
nonempty, duplicate-free, drawn from the graph's vertices and pairwise
disjoint; outside such inputs it can panic via `unwrap`, surfacing no
error value — none of the stage signatures has an error channel. -/
theorem pipeline_stage_error_behavior :
    (∀ (g : BiedgedGraph) (proj : List (Nat × Nat)),
      ∃ g2 p2, contract_all_gray_edges g proj = some (g2, p2)) ∧
    (∀ (g : BiedgedGraph) (components : List (List Nat)) (proj : List (Nat × Nat)),
      compsOK g components →
      ∃ g2 p2, merge_components g components proj = some (g2, p2)) := by
  constructor
  · intro g proj
    obtain ⟨g2, p2, h, _⟩ := contractGrayLoop_total (grayEdgeCount g) g proj (Nat.le_refl _)
    exact ⟨g2, p2, h⟩
  · intro g components proj hok
    exact merge_components_total components g proj hok

/-- Witness for C10's amended statement: merging two disjoint components in
a three-vertex graph completes. -/
theorem pipeline_stage_error_behavior_witness :
    compsOK ⟨[1, 2, 3], []⟩ [[1, 2], [3]] ∧
    ∃ g2 p2, merge_components ⟨[1, 2, 3], []⟩ [[1, 2], [3]] [] = some (g2, p2) :=
  ⟨by decide, pipeline_stage_error_behavior.2 ⟨[1, 2, 3], []⟩ [[1, 2], [3]] [] (by decide)⟩

/-! ## The DFS of `find_cycles`: basic adjacency facts -/

theorem weightOf_symm (g : BiedgedGraph) (u v : Nat) : weightOf g u v = weightOf g v u := by
  unfold weightOf
  have hf : g.edges.filter (fun e => pairMatch u v e) =
      g.edges.filter (fun e => pairMatch v u e) := by
    apply List.filter_congr
    intro e _
    have : pairMatch u v e ↔ pairMatch v u e := by
      unfold pairMatch
      exact Or.comm
    simp [this]
  rw [hf]

theorem mem_adjNbrs {g : BiedgedGraph} {v u : Nat} :
    u ∈ adjNbrs g v ↔ u ∈ g.nodes ∧ weightOf g v u ≠ ⟨0, 0⟩ := by
  unfold adjNbrs
  rw [(List.perm_insertionSort _ _).mem_iff, List.mem_filter, List.mem_dedup]
  simp

theorem adjNbrs_nodup (g : BiedgedGraph) (v : Nat) : (adjNbrs g v).Nodup := by
  unfold adjNbrs
  exact (List.perm_insertionSort _ _).nodup_iff.mpr (g.nodes.nodup_dedup.filter _)

theorem adjNbrs_sorted (g : BiedgedGraph) (v : Nat) :
    (adjNbrs g v).Sorted (· ≤ ·) := by
  unfold adjNbrs
  exact List.sorted_insertionSort _ _

theorem adjNbrs_symm {g : BiedgedGraph} {v u : Nat} (hu : u ∈ adjNbrs g v)
    (hv : v ∈ g.nodes) : v ∈ adjNbrs g u := by
  rw [mem_adjNbrs] at hu ⊢
  refine ⟨hv, ?_⟩
  rw [weightOf_symm]
  exact hu.2

theorem adjNbrs_sub_nodes {g : BiedgedGraph} {v u : Nat} (hu : u ∈ adjNbrs g v) :
    u ∈ g.nodes := (mem_adjNbrs.mp hu).1

theorem alookup_const_vals {β : Type} {L : List (Nat × β)} {c : β}
    (hc : ∀ p ∈ L, p.2 = c) {k : Nat} (hk : k ∈ L.map Prod.fst) :
    alookup L k = some c := by
  induction L with
  | nil => simp at hk
  | cons p t ih =>
    obtain ⟨a, b⟩ := p
    by_cases hak : a = k
    · have : b = c := hc (a, b) (List.mem_cons_self _ _)
      simp [alookup, hak, this]
    · rw [List.map_cons, List.mem_cons] at hk
      rcases hk with rfl | hk2
      · exact absurd rfl hak
      · simp only [alookup, if_neg hak]
        exact ih (fun q hq => hc q (List.mem_cons_of_mem _ hq)) hk2

theorem alookup_pushed (fresh : List Nat) (cur : Nat) (ps : List (Nat × Nat)) (k : Nat) :
    alookup ((fresh.map (fun a => (a, cur))).reverse ++ ps) k =
      if k ∈ fresh then some cur else alookup ps k := by
  rw [alookup_append]
  by_cases hk : k ∈ fresh
  · have h1 : alookup (fresh.map (fun a => (a, cur))).reverse k = some cur := by
      apply alookup_const_vals
      · intro p hp
        rw [List.mem_reverse, List.mem_map] at hp
        obtain ⟨a, _, rfl⟩ := hp
        rfl
      · rw [List.map_reverse, List.mem_reverse, List.map_map]
        simpa using hk
    rw [h1, if_pos hk]
  · have h1 : alookup (fresh.map (fun a => (a, cur))).reverse k = none := by
      apply alookup_eq_none_of_not_mem_keys
      rw [List.map_reverse, List.mem_reverse, List.map_map]
      simpa using hk
    rw [h1, if_neg hk]

theorem visitFold_fields (g : BiedgedGraph) (cur : Nat) :
    ∀ (l : List Nat) (s : FCState),
    (l.foldl
      (fun st adj =>
        if adj = cur then
          { st with cycles := st.cycles ++ List.replicate (weightOf g cur cur).black [cur, cur] }
        else if adj ∈ st.visited then
          if alookup st.parents cur ≠ some adj then
            { st with cycleEnds := st.cycleEnds ++ [(adj, cur)] }
          else st
        else
          let st2 :=
            if (weightOf g cur adj).black = 2 then
              { st with cycles := st.cycles ++ [[cur, adj]] }
            else st
          { st2 with stack := adj :: st2.stack, parents := (adj, cur) :: st2.parents })
      s) =
    { visited := s.visited
      parents := ((l.filter (fun a => a ≠ cur ∧ a ∉ s.visited)).map
          (fun a => (a, cur))).reverse ++ s.parents
      stack := (l.filter (fun a => a ≠ cur ∧ a ∉ s.visited)).reverse ++ s.stack
      cycles := s.cycles ++ l.flatMap
        (fun adj =>
          if adj = cur then List.replicate (weightOf g cur cur).black [cur, cur]
          else if adj ∉ s.visited ∧ (weightOf g cur adj).black = 2 then [[cur, adj]]
          else [])
      cycleEnds := s.cycleEnds ++
        (l.filter (fun a => a ≠ cur ∧ a ∈ s.visited ∧ alookup s.parents cur ≠ some a)).map
          (fun a => (a, cur)) } := by
  intro l
  induction l with
  | nil =>
    intro s
    simp
  | cons a l ih =>
    intro s
    rw [List.foldl_cons]
    by_cases hac : a = cur
    · subst hac
      rw [if_pos rfl, ih]
      simp [List.filter_cons, List.flatMap_cons, List.append_assoc]
    · rw [if_neg hac]
      by_cases hv : a ∈ s.visited
      · rw [if_pos hv]
        by_cases hcond : alookup s.parents cur ≠ some a
        · rw [if_pos hcond, ih]
          simp [List.filter_cons, List.flatMap_cons, List.append_assoc, hac, hv, hcond]
        · rw [if_neg hcond, ih]
          simp [List.filter_cons, List.flatMap_cons, List.append_assoc, hac, hv, hcond]
      · rw [if_neg hv]
        have hpar : alookup ((a, cur) :: s.parents) cur = alookup s.parents cur := by
          simp [alookup, hac]
        by_cases hb : (weightOf g cur a).black = 2
        · rw [if_pos hb, ih]
          simp [List.filter_cons, List.flatMap_cons, List.append_assoc, hac, hv, hb, hpar,
            List.reverse_cons]
        · rw [if_neg hb, ih]
          simp [List.filter_cons, List.flatMap_cons, List.append_assoc, hac, hv, hb, hpar,
            List.reverse_cons]

theorem visitOne_eq (g : BiedgedGraph) (cur : Nat) (s : FCState) :
    visitOne g cur s =
      { visited := s.visited
        parents := ((freshList g cur s.visited).map (fun a => (a, cur))).reverse ++ s.parents
        stack := (freshList g cur s.visited).reverse ++ s.stack
        cycles := s.cycles ++ cycAdds g cur s.visited
        cycleEnds := s.cycleEnds ++
          (backsList g cur s.visited s.parents).map (fun a => (a, cur)) } := by
  unfold visitOne freshList cycAdds backsList
  exact visitFold_fields g cur (adjNbrs g cur) s

theorem mem_freshList {g : BiedgedGraph} {cur x : Nat} {V : List Nat} :
    x ∈ freshList g cur V ↔ x ∈ adjNbrs g cur ∧ x ≠ cur ∧ x ∉ V := by
  unfold freshList
  rw [List.mem_filter]
  simp

theorem freshList_nodup (g : BiedgedGraph) (cur : Nat) (V : List Nat) :
    (freshList g cur V).Nodup := (adjNbrs_nodup g cur).filter _

theorem mem_backsList {g : BiedgedGraph} {cur x : Nat} {V : List Nat} {P : List (Nat × Nat)} :
    x ∈ backsList g cur V P ↔
      x ∈ adjNbrs g cur ∧ x ≠ cur ∧ x ∈ V ∧ alookup P cur ≠ some x := by
  unfold backsList
  rw [List.mem_filter]
  simp

theorem reaches_trans {ps : List (Nat × Nat)} {a b c : Nat}
    (h1 : Reaches ps a b) (h2 : Reaches ps b c) : Reaches ps a c := by
  induction h1 with
  | refl => exact h2
  | step hxy _ ih => exact Reaches.step hxy (ih h2)

theorem reaches_lift {ps ps2 : List (Nat × Nat)} {V : List Nat}
    (hclosed : ∀ x q, alookup ps x = some q → q ∈ V)
    (hagree : ∀ x ∈ V, alookup ps2 x = alookup ps x)
    {a b : Nat} (ha : a ∈ V) (h : Reaches ps a b) : Reaches ps2 a b := by
  induction h with
  | refl => exact Reaches.refl _
  | step hxy hyz ih =>
    rename_i x y z
    have hy : y ∈ V := hclosed x y hxy
    exact Reaches.step ((hagree x ha).trans hxy) (ih hy)

theorem count_payload_self (g : BiedgedGraph) (cur : Nat) (Vc : List Nat) (v : Nat) :
    ∀ l : List Nat, l.Nodup →
    (l.flatMap
      (fun adj =>
        if adj = cur then List.replicate (weightOf g cur cur).black [cur, cur]
        else if adj ∉ Vc ∧ (weightOf g cur adj).black = 2 then [[cur, adj]]
        else [])).count [v, v] =
      if v = cur ∧ cur ∈ l then (weightOf g cur cur).black else 0 := by
  intro l
  induction l with
  | nil => simp
  | cons a l ih =>
    intro hnd
    rw [List.nodup_cons] at hnd
    rw [List.flatMap_cons, List.count_append, ih hnd.2]
    by_cases hac : a = cur
    · subst hac
      rw [if_pos rfl]
      have hrep : (List.replicate (weightOf g a a).black [a, a]).count [v, v] =
          if v = a then (weightOf g a a).black else 0 := by
        by_cases hv : v = a
        · rw [if_pos hv, hv]
          simp
        · rw [if_neg hv]
          apply List.count_eq_zero_of_not_mem
          rw [List.mem_replicate]
          rintro ⟨-, h⟩
          injection h with h1 _
          exact hv h1
      rw [hrep]
      by_cases hv : v = a
      · rw [if_pos hv, if_neg (fun h : v = a ∧ a ∈ l => hnd.1 h.2),
          if_pos ⟨hv, List.mem_cons_self _ _⟩]
        omega
      · rw [if_neg hv, if_neg (fun h : v = a ∧ a ∈ l => hv h.1),
          if_neg (fun h : v = a ∧ a ∈ a :: l => hv h.1)]
    · rw [if_neg hac]
      have hz : (if a ∉ Vc ∧ (weightOf g cur a).black = 2 then [[cur, a]] else []).count
          [v, v] = 0 := by
        by_cases hc : a ∉ Vc ∧ (weightOf g cur a).black = 2
        · rw [if_pos hc]
          apply List.count_eq_zero_of_not_mem
          intro hm
          rw [List.mem_singleton] at hm
          injection hm with h1 h2
          injection h2 with h3 _
          exact hac (h3.symm.trans h1)
        · rw [if_neg hc]
          rfl
      rw [hz, Nat.zero_add]
      have hmm : (cur ∈ a :: l) ↔ cur ∈ l := by
        rw [List.mem_cons]
        exact or_iff_right (fun h => hac h.symm)
      by_cases hcond : v = cur ∧ cur ∈ l
      · rw [if_pos hcond, if_pos ⟨hcond.1, hmm.mpr hcond.2⟩]
      · rw [if_neg hcond, if_neg (fun h => hcond ⟨h.1, hmm.mp h.2⟩)]

theorem count_payload_pair (g : BiedgedGraph) (cur : Nat) (Vc : List Nat) (x y : Nat)
    (hxy : x ≠ y) :
    ∀ l : List Nat, l.Nodup →
    (l.flatMap
      (fun adj =>
        if adj = cur then List.replicate (weightOf g cur cur).black [cur, cur]
        else if adj ∉ Vc ∧ (weightOf g cur adj).black = 2 then [[cur, adj]]
        else [])).count [x, y] =
      if x = cur ∧ y ∈ l ∧ y ≠ cur ∧ y ∉ Vc ∧ (weightOf g cur y).black = 2 then 1
      else 0 := by
  intro l
  induction l with
  | nil => simp
  | cons a l ih =>
    intro hnd
    rw [List.nodup_cons] at hnd
    rw [List.flatMap_cons, List.count_append, ih hnd.2]
    have hstep : (if a = cur then List.replicate (weightOf g cur cur).black [cur, cur]
        else if a ∉ Vc ∧ (weightOf g cur a).black = 2 then [[cur, a]] else []).count [x, y] =
        if x = cur ∧ y = a ∧ a ≠ cur ∧ a ∉ Vc ∧ (weightOf g cur a).black = 2 then 1
        else 0 := by
      by_cases hac : a = cur
      · rw [if_pos hac]
        have h0 : (List.replicate (weightOf g cur cur).black [cur, cur]).count [x, y] = 0 := by
          apply List.count_eq_zero_of_not_mem
          rw [List.mem_replicate]
          rintro ⟨-, h⟩
          injection h with h1 h2
          injection h2 with h3 _
          exact hxy (h1.trans h3.symm)
        rw [h0, if_neg]
        rintro ⟨-, -, hne, -⟩
        exact hne hac
      · rw [if_neg hac]
        by_cases hc : a ∉ Vc ∧ (weightOf g cur a).black = 2
        · rw [if_pos hc]
          by_cases hm : x = cur ∧ y = a
          · have hl : ([[cur, a]] : List (List Nat)).count [x, y] = 1 := by
              rw [hm.1, hm.2]
              simp
            rw [hl, if_pos ⟨hm.1, hm.2, hac, hc.1, hc.2⟩]
          · have h0 : ([[cur, a]] : List (List Nat)).count [x, y] = 0 := by
              apply List.count_eq_zero_of_not_mem
              intro hmem
              rw [List.mem_singleton] at hmem
              injection hmem with h1 h2
              injection h2 with h3 _
              exact hm ⟨h1, h3⟩
            rw [h0, if_neg]
            rintro ⟨ha1, ha2, -⟩
            exact hm ⟨ha1, ha2⟩
        · rw [if_neg hc]
          rw [List.count_nil, if_neg]
          rintro ⟨-, hya, -, h3, h4⟩
          exact hc ⟨hya ▸ h3, hya ▸ h4⟩
    rw [hstep]
    by_cases hya : y = a
    · subst hya
      have hno : ¬ (x = cur ∧ y ∈ l ∧ y ≠ cur ∧ y ∉ Vc ∧ (weightOf g cur y).black = 2) := by
        rintro ⟨-, hy2, -⟩
        exact hnd.1 hy2
      rw [if_neg hno, Nat.add_zero]
      by_cases hcond : x = cur ∧ y = y ∧ y ≠ cur ∧ y ∉ Vc ∧ (weightOf g cur y).black = 2
      · rw [if_pos hcond, if_pos ⟨hcond.1, List.mem_cons_self _ _, hcond.2.2⟩]
      · rw [if_neg hcond, if_neg]
        rintro ⟨h1, -, h3⟩
        exact hcond ⟨h1, rfl, h3⟩
    · have hmm : (y ∈ a :: l) ↔ y ∈ l := by
        rw [List.mem_cons]
        exact or_iff_right hya
      have hno : ¬ (x = cur ∧ y = a ∧ a ≠ cur ∧ a ∉ Vc ∧ (weightOf g cur a).black = 2) := by
        rintro ⟨-, h2, -⟩
        exact hya h2
      rw [if_neg hno, Nat.zero_add]
      by_cases hcond : x = cur ∧ y ∈ l ∧ y ≠ cur ∧ y ∉ Vc ∧ (weightOf g cur y).black = 2
      · rw [if_pos hcond, if_pos ⟨hcond.1, hmm.mpr hcond.2.1, hcond.2.2⟩]
      · rw [if_neg hcond, if_neg]
        rintro ⟨h1, h2, h3⟩
        exact hcond ⟨h1, hmm.mp h2, h3⟩

theorem count_cycAdds_self (g : BiedgedGraph) (cur : Nat) (Vc : List Nat) (v : Nat) :
    (cycAdds g cur Vc).count [v, v] =
      if v = cur ∧ cur ∈ adjNbrs g cur then (weightOf g cur cur).black else 0 := by
  unfold cycAdds
  exact count_payload_self g cur Vc v (adjNbrs g cur) (adjNbrs_nodup g cur)

theorem count_cycAdds_pair (g : BiedgedGraph) (cur : Nat) (Vc : List Nat) (x y : Nat)
    (hxy : x ≠ y) :
    (cycAdds g cur Vc).count [x, y] =
      if x = cur ∧ y ∈ adjNbrs g cur ∧ y ≠ cur ∧ y ∉ Vc ∧ (weightOf g cur y).black = 2
      then 1 else 0 := by
  unfold cycAdds
  exact count_payload_pair g cur Vc x y hxy (adjNbrs g cur) (adjNbrs_nodup g cur)

theorem dfsInv_visit (g : BiedgedGraph) (s : FCState) (cur : Nat) (rest : List Nat)
    (hinv : DfsInv g s) (hst : s.stack = cur :: rest) (hcur : cur ∉ s.visited) :
    DfsInv g (visitOne g cur { s with stack := rest, visited := s.visited ++ [cur] }) := by
  obtain ⟨nodupV, visSub, stackSub, parentVis, parentRank, clA, clB, pendStack, clC,
    endsOK, selfCyc, pairCyc⟩ := hinv
  have hcurnode : cur ∈ g.nodes := stackSub cur (by rw [hst]; exact List.mem_cons_self _ _)
  rw [visitOne_eq]
  simp only
  set Vc := s.visited ++ [cur] with hVc
  set F := freshList g cur Vc with hF
  set P2 := ((F.map (fun a => (a, cur))).reverse ++ s.parents) with hP2def
  have hmemVc : ∀ x, x ∈ Vc ↔ x ∈ s.visited ∨ x = cur := by
    intro x
    rw [hVc, List.mem_append, List.mem_singleton]
  have hFmem : ∀ x, x ∈ F ↔ x ∈ adjNbrs g cur ∧ x ≠ cur ∧ x ∉ s.visited := by
    intro x
    rw [hF, mem_freshList]
    constructor
    · rintro ⟨h1, h2, h3⟩
      exact ⟨h1, h2, fun hv => h3 ((hmemVc x).mpr (Or.inl hv))⟩
    · rintro ⟨h1, h2, h3⟩
      refine ⟨h1, h2, fun hv => ?_⟩
      rcases (hmemVc x).mp hv with h | h
      · exact h3 h
      · exact h2 h
  have hP2 : ∀ k, alookup P2 k = if k ∈ F then some cur else alookup s.parents k :=
    fun k => alookup_pushed F cur s.parents k
  have hcurF : cur ∉ F := fun h => ((hFmem cur).mp h).2.1 rfl
  have hP2cur : alookup P2 cur = alookup s.parents cur := by
    rw [hP2, if_neg hcurF]
  have hagreeV : ∀ x ∈ s.visited, alookup P2 x = alookup s.parents x := by
    intro x hx
    rw [hP2, if_neg (fun hf => ((hFmem x).mp hf).2.2 hx)]
  have hliftV : ∀ a b, a ∈ s.visited → Reaches s.parents a b → Reaches P2 a b :=
    fun a b ha h => reaches_lift parentVis hagreeV ha h
  have hL1 : ∀ x qx, x ∉ s.visited → alookup s.parents x = some qx →
      ∃ p, alookup s.parents cur = some p ∧ Reaches s.parents p qx := by
    intro x qx hx hlx
    have hget : s.stack.get? 0 = some cur := by
      rw [hst]
      rfl
    exact clC x qx hx hlx cur 0 hcur (Nat.zero_le _) hget
  have hcurstep : ∀ x qx, x ∉ s.visited → alookup s.parents x = some qx →
      Reaches P2 cur qx := by
    intro x qx hx hlx
    obtain ⟨p, hpc, hpr⟩ := hL1 x qx hx hlx
    have hpV : p ∈ s.visited := parentVis cur p hpc
    exact Reaches.step (by rw [hP2cur]; exact hpc) (hliftV p qx hpV hpr)
  have hstget : ∀ i z, (F.reverse ++ rest).get? i = some z →
      (i < F.length ∧ z ∈ F) ∨ (F.length ≤ i ∧ rest.get? (i - F.length) = some z) := by
    intro i z h
    rw [List.get?_eq_getElem?, List.getElem?_append] at h
    by_cases hi : i < F.reverse.length
    · rw [if_pos hi] at h
      left
      rw [List.length_reverse] at hi
      refine ⟨hi, ?_⟩
      rw [← List.mem_reverse]
      exact List.getElem?_mem h
    · rw [if_neg hi] at h
      right
      rw [List.length_reverse] at hi
      rw [List.length_reverse] at h
      exact ⟨Nat.le_of_not_lt hi, by rw [List.get?_eq_getElem?]; exact h⟩
  refine ⟨?_, ?_, ?_, ?_, ?_, ?_, ?_, ?_, ?_, ?_, ?_, ?_⟩
  · -- nodupV
    rw [hVc, List.nodup_append]
    refine ⟨nodupV, by simp, ?_⟩
    intro a ha hb
    rw [List.mem_singleton] at hb
    exact hcur (hb ▸ ha)
  · -- visSub
    intro x hx
    rcases (hmemVc x).mp hx with h | h
    · exact visSub x h
    · exact h ▸ hcurnode
  · -- stackSub
    intro x hx
    rcases List.mem_append.mp hx with h | h
    · exact adjNbrs_sub_nodes ((hFmem x).mp (List.mem_reverse.mp h)).1
    · exact stackSub x (by rw [hst]; exact List.mem_cons_of_mem _ h)
  · -- parentVis
    intro x q hq
    rw [hP2] at hq
    by_cases hf : x ∈ F
    · rw [if_pos hf] at hq
      rw [← Option.some.inj hq]
      exact (hmemVc cur).mpr (Or.inr rfl)
    · rw [if_neg hf] at hq
      exact (hmemVc q).mpr (Or.inl (parentVis x q hq))
  · -- parentRank
    intro x q hx hq
    rw [hP2] at hq
    by_cases hf : x ∈ F
    · exfalso
      obtain ⟨-, h2, h3⟩ := (hFmem x).mp hf
      rcases (hmemVc x).mp hx with h | h
      · exact h3 h
      · exact h2 h
    · rw [if_neg hf] at hq
      have hqV : q ∈ s.visited := parentVis x q hq
      rcases (hmemVc x).mp hx with h | h
      · rw [hVc, List.indexOf_append_of_mem h, List.indexOf_append_of_mem hqV]
        exact parentRank x q h hq
      · subst h
        rw [hVc, List.indexOf_append_of_not_mem hcur, List.indexOf_append_of_mem hqV]
        have h1 : List.indexOf x [x] = 0 := List.indexOf_cons_self _ _
        rw [h1, Nat.add_zero]
        exact List.indexOf_lt_length.mpr hqV
  · -- clauseA
    intro x hxn hxVc hex
    have hxV : x ∉ s.visited := fun h => hxVc ((hmemVc x).mpr (Or.inl h))
    have hxc : x ≠ cur := fun h => hxVc ((hmemVc x).mpr (Or.inr h))
    obtain ⟨w, hw, hwx, hwVc⟩ := hex
    rw [hP2]
    by_cases hf : x ∈ F
    · rw [if_pos hf]
      rfl
    · rw [if_neg hf]
      rcases (hmemVc w).mp hwVc with h | h
      · exact clA x hxn hxV ⟨w, hw, hwx, h⟩
      · exfalso
        subst h
        exact hf ((hFmem x).mpr ⟨adjNbrs_symm hw hxn, hxc, hxV⟩)
  · -- clauseB
    intro x q hxVc hq w hw hwx hwVc
    have hxV : x ∉ s.visited := fun h => hxVc ((hmemVc x).mpr (Or.inl h))
    have hxc : x ≠ cur := fun h => hxVc ((hmemVc x).mpr (Or.inr h))
    rw [hP2] at hq
    by_cases hf : x ∈ F
    · rw [if_pos hf] at hq
      have hqcur : q = cur := (Option.some.inj hq).symm
      rw [hqcur]
      rcases (hmemVc w).mp hwVc with hwV | hwc
      · rcases hpx : alookup s.parents x with _ | qx
        · exact absurd (clA x (adjNbrs_sub_nodes ((hFmem x).mp hf).1) hxV
            ⟨w, hw, hwx, hwV⟩) (by rw [hpx]; simp)
        · have hqxw : Reaches s.parents qx w := clB x qx hxV hpx w hw hwx hwV
          obtain ⟨p, hpc, hpq⟩ := hL1 x qx hxV hpx
          have hpw : Reaches s.parents p w := reaches_trans hpq hqxw
          have hpV : p ∈ s.visited := parentVis cur p hpc
          exact Reaches.step (by rw [hP2cur]; exact hpc) (hliftV p w hpV hpw)
      · rw [hwc]
        exact Reaches.refl _
    · rw [if_neg hf] at hq
      rcases (hmemVc w).mp hwVc with hwV | hwc
      · exact hliftV q w (parentVis x q hq) (clB x q hxV hq w hw hwx hwV)
      · exfalso
        subst hwc
        have hxn : x ∈ g.nodes :=
          stackSub x (pendStack x q hxV hq)
        exact hf ((hFmem x).mpr ⟨adjNbrs_symm hw hxn, hxc, hxV⟩)
  · -- pendStack
    intro x q hxVc hq
    have hxV : x ∉ s.visited := fun h => hxVc ((hmemVc x).mpr (Or.inl h))
    have hxc : x ≠ cur := fun h => hxVc ((hmemVc x).mpr (Or.inr h))
    rw [hP2] at hq
    by_cases hf : x ∈ F
    · exact List.mem_append.mpr (Or.inl (List.mem_reverse.mpr hf))
    · rw [if_neg hf] at hq
      have := pendStack x q hxV hq
      rw [hst] at this
      rcases List.mem_cons.mp this with h | h
      · exact absurd h hxc
      · exact List.mem_append.mpr (Or.inr h)
  · -- clauseC
    intro x q hxVc hq z i hzVc hi hgi
    have hi2 : i ≤ (F.reverse ++ rest).indexOf x := hi
    have hxV : x ∉ s.visited := fun h => hxVc ((hmemVc x).mpr (Or.inl h))
    have hxc : x ≠ cur := fun h => hxVc ((hmemVc x).mpr (Or.inr h))
    rw [hP2] at hq
    by_cases hf : x ∈ F
    · rw [if_pos hf] at hq
      have hqcur : q = cur := (Option.some.inj hq).symm
      have hxidx : (F.reverse ++ rest).indexOf x < F.length := by
        rw [List.indexOf_append_of_mem (List.mem_reverse.mpr hf)]
        have := List.indexOf_lt_length.mpr (List.mem_reverse.mpr hf)
        rw [List.length_reverse] at this
        exact this
      rcases hstget i z hgi with ⟨hiF, hzF⟩ | ⟨hge, -⟩
      · exact ⟨cur, by rw [hP2, if_pos hzF], by rw [hqcur]; exact Reaches.refl _⟩
      · exfalso
        omega
    · rw [if_neg hf] at hq
      have hxrest : x ∈ rest := by
        have := pendStack x q hxV hq
        rw [hst] at this
        rcases List.mem_cons.mp this with h | h
        · exact absurd h hxc
        · exact h
      have hxidx : (F.reverse ++ rest).indexOf x = F.length + rest.indexOf x := by
        rw [List.indexOf_append_of_not_mem (fun h => hf (List.mem_reverse.mp h)),
          List.length_reverse]
      rcases hstget i z hgi with ⟨hiF, hzF⟩ | ⟨hge, hrget⟩
      · exact ⟨cur, by rw [hP2, if_pos hzF], hcurstep x q hxV hq⟩
      · have hzV : z ∉ s.visited := fun h => hzVc ((hmemVc z).mpr (Or.inl h))
        have hjx : i - F.length ≤ rest.indexOf x := by
          rw [hxidx] at hi2
          omega
        have hidxold : (cur :: rest).indexOf x = (rest.indexOf x).succ :=
          List.indexOf_cons_ne rest (fun h => hxc h.symm)
        have hj1 : i - F.length + 1 ≤ s.stack.indexOf x := by
          rw [hst, hidxold]
          omega
        have hgold : s.stack.get? (i - F.length + 1) = some z := by
          rw [hst]
          exact hrget
        obtain ⟨qz, hqz, hreach⟩ := clC x q hxV hq z (i - F.length + 1) hzV hj1 hgold
        by_cases hzF : z ∈ F
        · exact ⟨cur, by rw [hP2, if_pos hzF], hcurstep x q hxV hq⟩
        · exact ⟨qz, by rw [hP2, if_neg hzF]; exact hqz,
            hliftV qz q (parentVis z qz hqz) hreach⟩
  · -- endsOK
    intro p hp
    rcases List.mem_append.mp hp with hold | hnew
    · obtain ⟨h1, h2, h3, h4, pe, hpe, hne, hre⟩ := endsOK p hold
      refine ⟨(hmemVc p.1).mpr (Or.inl h1), (hmemVc p.2).mpr (Or.inl h2), h3, h4, pe, ?_, hne, ?_⟩
      · rw [hagreeV p.2 h2]
        exact hpe
      · exact hliftV pe p.1 (parentVis p.2 pe hpe) hre
    · rw [List.mem_map] at hnew
      obtain ⟨a, ha, rfl⟩ := hnew
      rw [mem_backsList] at ha
      obtain ⟨hadj, hac, haVc, hnp⟩ := ha
      have haV : a ∈ s.visited := by
        rcases (hmemVc a).mp haVc with h | h
        · exact h
        · exact absurd h hac
      refine ⟨haVc, (hmemVc cur).mpr (Or.inr rfl), hac, hadj, ?_⟩
      rcases hpc : alookup s.parents cur with _ | p0
      · exact absurd (clA cur hcurnode hcur ⟨a, hadj, hac, haV⟩) (by rw [hpc]; simp)
      · have hre : Reaches s.parents p0 a := clB cur p0 hcur hpc a hadj hac haV
        exact ⟨p0, by rw [hP2cur]; exact hpc,
          fun h => hnp (by rw [hpc, h]),
          hliftV p0 a (parentVis cur p0 hpc) hre⟩
  · -- selfCyc
    intro v
    rw [List.count_append, count_cycAdds_self, selfCyc v]
    by_cases hvc : v = cur
    · subst hvc
      rw [if_neg hcur, if_pos ((hmemVc v).mpr (Or.inr rfl))]
      by_cases hadj : v ∈ adjNbrs g v
      · rw [if_pos ⟨rfl, hadj⟩]
        omega
      · rw [if_neg (fun h : v = v ∧ v ∈ adjNbrs g v => hadj h.2)]
        have hw0 : weightOf g v v = ⟨0, 0⟩ := by
          by_contra hne
          exact hadj (mem_adjNbrs.mpr ⟨hcurnode, hne⟩)
        rw [hw0]
    · rw [if_neg (fun h : v = cur ∧ cur ∈ adjNbrs g cur => hvc h.1), Nat.add_zero]
      have hiff : (v ∈ Vc) ↔ v ∈ s.visited := by
        rw [hmemVc]
        exact or_iff_left hvc
      by_cases hv : v ∈ s.visited
      · rw [if_pos hv, if_pos (hiff.mpr hv)]
      · rw [if_neg hv, if_neg (fun h => hv (hiff.mp h))]
  · -- pairCyc
    intro u v huv hun hvn
    rw [List.count_append, List.count_append, count_cycAdds_pair g cur Vc u v huv,
      count_cycAdds_pair g cur Vc v u (Ne.symm huv)]
    have hold := pairCyc u v huv hun hvn
    by_cases huc : u = cur
    · subst huc
      have hvc : v ≠ u := Ne.symm huv
      have huVc : u ∈ Vc := (hmemVc u).mpr (Or.inr rfl)
      rw [if_neg (fun h : v = u ∧ u ∈ adjNbrs g u ∧ u ≠ u ∧ u ∉ Vc ∧
        (weightOf g u u).black = 2 => hvc h.1)]
      by_cases hB : (weightOf g u v).black = 2
      · have hwne : weightOf g u v ≠ ⟨0, 0⟩ := by
          intro h
          rw [h] at hB
          exact absurd hB (by decide)
        rw [if_pos (⟨Or.inl huVc, hB⟩ : (u ∈ Vc ∨ v ∈ Vc) ∧ (weightOf g u v).black = 2)]
        by_cases hvV : v ∈ s.visited
        · rw [if_neg (fun h : u = u ∧ v ∈ adjNbrs g u ∧ v ≠ u ∧ v ∉ Vc ∧
            (weightOf g u v).black = 2 => h.2.2.2.1 ((hmemVc v).mpr (Or.inl hvV)))]
          rw [if_pos (⟨Or.inr hvV, hB⟩ :
            (u ∈ s.visited ∨ v ∈ s.visited) ∧ (weightOf g u v).black = 2)] at hold
          omega
        · have hvVc : v ∉ Vc := by
            rw [hmemVc]
            rintro (h | h)
            · exact hvV h
            · exact hvc h
          rw [if_pos (⟨rfl, mem_adjNbrs.mpr ⟨hvn, hwne⟩, hvc, hvVc, hB⟩ :
            u = u ∧ v ∈ adjNbrs g u ∧ v ≠ u ∧ v ∉ Vc ∧ (weightOf g u v).black = 2)]
          rw [if_neg (fun h : (u ∈ s.visited ∨ v ∈ s.visited) ∧
            (weightOf g u v).black = 2 => by
              rcases h.1 with hh | hh
              · exact hcur hh
              · exact hvV hh)] at hold
          omega
      · rw [if_neg (fun h : (u ∈ Vc ∨ v ∈ Vc) ∧ (weightOf g u v).black = 2 => hB h.2),
          if_neg (fun h : u = u ∧ v ∈ adjNbrs g u ∧ v ≠ u ∧ v ∉ Vc ∧
            (weightOf g u v).black = 2 => hB h.2.2.2.2)]
        rw [if_neg (fun h : (u ∈ s.visited ∨ v ∈ s.visited) ∧
          (weightOf g u v).black = 2 => hB h.2)] at hold
        omega
    · by_cases hvc : v = cur
      · subst hvc
        have hvVc : v ∈ Vc := (hmemVc v).mpr (Or.inr rfl)
        have hsym : weightOf g v u = weightOf g u v := weightOf_symm g v u
        rw [if_neg (fun h : u = v ∧ v ∈ adjNbrs g v ∧ v ≠ v ∧ v ∉ Vc ∧
          (weightOf g v v).black = 2 => huv h.1)]
        by_cases hB : (weightOf g u v).black = 2
        · have hwne : weightOf g u v ≠ ⟨0, 0⟩ := by
            intro h
            rw [h] at hB
            exact absurd hB (by decide)
          rw [if_pos (⟨Or.inr hvVc, hB⟩ :
            (u ∈ Vc ∨ v ∈ Vc) ∧ (weightOf g u v).black = 2)]
          by_cases huV : u ∈ s.visited
          · rw [if_neg (fun h : v = v ∧ u ∈ adjNbrs g v ∧ u ≠ v ∧ u ∉ Vc ∧
              (weightOf g v u).black = 2 => h.2.2.2.1 ((hmemVc u).mpr (Or.inl huV)))]
            rw [if_pos (⟨Or.inl huV, hB⟩ :
              (u ∈ s.visited ∨ v ∈ s.visited) ∧ (weightOf g u v).black = 2)] at hold
            omega
          · have huVc : u ∉ Vc := by
              rw [hmemVc]
              rintro (h | h)
              · exact huV h
              · exact huc h
            have hadju : u ∈ adjNbrs g v := by
              rw [mem_adjNbrs, hsym]
              exact ⟨hun, hwne⟩
            rw [if_pos (⟨rfl, hadju, huc, huVc, by rw [hsym]; exact hB⟩ :
              v = v ∧ u ∈ adjNbrs g v ∧ u ≠ v ∧ u ∉ Vc ∧ (weightOf g v u).black = 2)]
            rw [if_neg (fun h : (u ∈ s.visited ∨ v ∈ s.visited) ∧
              (weightOf g u v).black = 2 => by
                rcases h.1 with hh | hh
                · exact huV hh
                · exact hcur hh)] at hold
            omega
        · rw [if_neg (fun h : (u ∈ Vc ∨ v ∈ Vc) ∧ (weightOf g u v).black = 2 => hB h.2),
            if_neg (fun h : v = v ∧ u ∈ adjNbrs g v ∧ u ≠ v ∧ u ∉ Vc ∧
              (weightOf g v u).black = 2 => hB (by rw [← hsym]; exact h.2.2.2.2))]
          rw [if_neg (fun h : (u ∈ s.visited ∨ v ∈ s.visited) ∧
            (weightOf g u v).black = 2 => hB h.2)] at hold
          omega
      · rw [if_neg (fun h : u = cur ∧ v ∈ adjNbrs g cur ∧ v ≠ cur ∧ v ∉ Vc ∧
          (weightOf g cur v).black = 2 => huc h.1),
          if_neg (fun h : v = cur ∧ u ∈ adjNbrs g cur ∧ u ≠ cur ∧ u ∉ Vc ∧
            (weightOf g cur u).black = 2 => hvc h.1)]
        have hmu2 : (u ∈ Vc) ↔ u ∈ s.visited := by
          rw [hmemVc]
          exact or_iff_left huc
        have hmv2 : (v ∈ Vc) ↔ v ∈ s.visited := by
          rw [hmemVc]
          exact or_iff_left hvc
        by_cases hc : (u ∈ s.visited ∨ v ∈ s.visited) ∧ (weightOf g u v).black = 2
        · rw [if_pos hc] at hold
          rw [if_pos (⟨hc.1.imp hmu2.mpr hmv2.mpr, hc.2⟩ :
            (u ∈ Vc ∨ v ∈ Vc) ∧ (weightOf g u v).black = 2)]
          omega
        · rw [if_neg hc] at hold
          rw [if_neg (fun h : (u ∈ Vc ∨ v ∈ Vc) ∧ (weightOf g u v).black = 2 =>
            hc ⟨h.1.imp hmu2.mp hmv2.mp, h.2⟩)]
          omega

theorem dfsLoop_succ_nil (g : BiedgedGraph) (f : Nat) (s : FCState)
    (hse : s.stack = []) : dfsLoop g (f + 1) s = s := by
  conv_lhs => unfold dfsLoop
  rw [hse]

theorem dfsLoop_succ_cons (g : BiedgedGraph) (f : Nat) (s : FCState) (cur : Nat)
    (rest : List Nat) (hst : s.stack = cur :: rest) :
    dfsLoop g (f + 1) s =
      if cur ∈ s.visited then dfsLoop g f { s with stack := rest }
      else dfsLoop g f
        (visitOne g cur { s with stack := rest, visited := s.visited ++ [cur] }) := by
  conv_lhs => unfold dfsLoop
  rw [hst]

theorem indexOf_tail_le {x cur : Nat} {rest : List Nat} (hx : x ≠ cur) (i : Nat)
    (hi : i ≤ rest.indexOf x) : i + 1 ≤ (cur :: rest).indexOf x := by
  rw [List.indexOf_cons_ne rest (fun h => hx h.symm)]
  omega

theorem dfsInv_pop (g : BiedgedGraph) (s : FCState) (cur : Nat) (rest : List Nat)
    (hinv : DfsInv g s) (hst : s.stack = cur :: rest) (hcur : cur ∈ s.visited) :
    DfsInv g { s with stack := rest } := by
  obtain ⟨nodupV, visSub, stackSub, parentVis, parentRank, clA, clB, pendStack, clC,
    endsOK, selfCyc, pairCyc⟩ := hinv
  refine ⟨nodupV, visSub, ?_, parentVis, parentRank, clA, clB, ?_, ?_, endsOK,
    selfCyc, pairCyc⟩
  · intro x hx
    exact stackSub x (by rw [hst]; exact List.mem_cons_of_mem _ hx)
  · intro x q hxV hq
    have := pendStack x q hxV hq
    rw [hst] at this
    rcases List.mem_cons.mp this with h | h
    · exact absurd (h ▸ hcur) hxV
    · exact h
  · intro x q hxV hq z i hzV hi hgi
    have hi2 : i ≤ rest.indexOf x := hi
    have hgi2 : rest.get? i = some z := hgi
    have hxc : x ≠ cur := fun h => hxV (h ▸ hcur)
    have hj1 : i + 1 ≤ s.stack.indexOf x := by
      rw [hst]
      exact indexOf_tail_le hxc i hi2
    have hgold : s.stack.get? (i + 1) = some z := by
      rw [hst]
      exact hgi2
    exact clC x q hxV hq z (i + 1) hzV hj1 hgold

theorem dfsInv_root (g : BiedgedGraph) (s : FCState) (node : Nat)
    (hinv : DfsInv g s) (hse : s.stack = []) (hnode : node ∈ g.nodes) :
    DfsInv g { s with stack := node :: s.stack } := by
  obtain ⟨nodupV, visSub, stackSub, parentVis, parentRank, clA, clB, pendStack, clC,
    endsOK, selfCyc, pairCyc⟩ := hinv
  have hnopend : ∀ x q, x ∉ s.visited → alookup s.parents x = some q → False := by
    intro x q hxV hq
    have := pendStack x q hxV hq
    rw [hse] at this
    exact (List.not_mem_nil x) this
  refine ⟨nodupV, visSub, ?_, parentVis, parentRank, clA, clB, ?_, ?_, endsOK,
    selfCyc, pairCyc⟩
  · intro x hx
    simp only [hse] at hx
    rw [List.mem_singleton] at hx
    exact hx ▸ hnode
  · intro x q hxV hq
    exact absurd (hnopend x q hxV hq) (fun h => h)
  · intro x q hxV hq
    exact absurd (hnopend x q hxV hq) (fun h => h)

theorem dfsLoop_inv (g : BiedgedGraph) : ∀ (fuel : Nat) (s : FCState),
    DfsInv g s → DfsInv g (dfsLoop g fuel s) := by
  intro fuel
  induction fuel with
  | zero => intro s h; exact h
  | succ f ih =>
    intro s hinv
    rcases hst : s.stack with _ | ⟨cur, rest⟩
    · rw [dfsLoop_succ_nil g f s hst]
      exact hinv
    · rw [dfsLoop_succ_cons g f s cur rest hst]
      by_cases hcur : cur ∈ s.visited
      · rw [if_pos hcur]
        exact ih _ (dfsInv_pop g s cur rest hinv hst hcur)
      · rw [if_neg hcur]
        exact ih _ (dfsInv_visit g s cur rest hinv hst hcur)

theorem dfsLoop_visited_mono (g : BiedgedGraph) : ∀ (fuel : Nat) (s : FCState) (x : Nat),
    x ∈ s.visited → x ∈ (dfsLoop g fuel s).visited := by
  intro fuel
  induction fuel with
  | zero => intro s x h; exact h
  | succ f ih =>
    intro s x hx
    rcases hst : s.stack with _ | ⟨cur, rest⟩
    · rw [dfsLoop_succ_nil g f s hst]
      exact hx
    · rw [dfsLoop_succ_cons g f s cur rest hst]
      by_cases hcur : cur ∈ s.visited
      · rw [if_pos hcur]
        exact ih _ x hx
      · rw [if_neg hcur]
        apply ih
        rw [visitOne_eq]
        exact List.mem_append.mpr (Or.inl hx)

theorem dfsLoop_stack_absorbed (g : BiedgedGraph) : ∀ (fuel : Nat) (s : FCState) (x : Nat),
    x ∈ s.stack ∨ x ∈ s.visited →
    x ∈ (dfsLoop g fuel s).stack ∨ x ∈ (dfsLoop g fuel s).visited := by
  intro fuel
  induction fuel with
  | zero => intro s x h; exact h
  | succ f ih =>
    intro s x hx
    rcases hst : s.stack with _ | ⟨cur, rest⟩
    · rw [dfsLoop_succ_nil g f s hst]
      rw [hst] at hx
      rcases hx with h | h
      · exact absurd h (List.not_mem_nil x)
      · exact Or.inr h
    · rw [dfsLoop_succ_cons g f s cur rest hst]
      rw [hst] at hx
      by_cases hcur : cur ∈ s.visited
      · rw [if_pos hcur]
        apply ih
        rcases hx with h | h
        · rcases List.mem_cons.mp h with h2 | h2
          · exact Or.inr (h2 ▸ hcur)
          · exact Or.inl h2
        · exact Or.inr h
      · rw [if_neg hcur]
        apply ih
        rw [visitOne_eq]
        simp only
        rcases hx with h | h
        · rcases List.mem_cons.mp h with h2 | h2
          · exact Or.inr (List.mem_append.mpr (Or.inr (by rw [h2]; exact List.mem_singleton.mpr rfl)))
          · exact Or.inl (List.mem_append.mpr (Or.inr h2))
        · exact Or.inr (List.mem_append.mpr (Or.inl h))

theorem dfsInv_init (g : BiedgedGraph) : DfsInv g ⟨[], [], [], [], []⟩ := by
  refine ⟨?_, ?_, ?_, ?_, ?_, ?_, ?_, ?_, ?_, ?_, ?_, ?_⟩
  · exact List.nodup_nil
  · intro x hx
    exact absurd hx (List.not_mem_nil x)
  · intro x hx
    exact absurd hx (List.not_mem_nil x)
  · intro x q hq
    exact absurd hq (by simp [alookup])
  · intro x q hx _
    exact absurd hx (List.not_mem_nil x)
  · intro x _ _ hex
    obtain ⟨w, _, _, hw⟩ := hex
    exact absurd hw (List.not_mem_nil w)
  · intro x q _ hq
    exact absurd hq (by simp [alookup])
  · intro x q _ hq
    exact absurd hq (by simp [alookup])
  · intro x q _ hq
    exact absurd hq (by simp [alookup])
  · intro p hp
    exact absurd hp (List.not_mem_nil p)
  · intro v
    simp
  · intro u v _ _ _
    simp

theorem freshList_length_le (g : BiedgedGraph) (cur : Nat) (Vc : List Nat) :
    (freshList g cur Vc).length ≤ g.nodes.dedup.length := by
  have hnd := freshList_nodup g cur Vc
  have hsub : ∀ x ∈ freshList g cur Vc, x ∈ g.nodes.dedup := by
    intro x hx
    exact List.mem_dedup.mpr (adjNbrs_sub_nodes (mem_freshList.mp hx).1)
  calc (freshList g cur Vc).length = (freshList g cur Vc).toFinset.card :=
        (List.toFinset_card_of_nodup hnd).symm
    _ ≤ g.nodes.dedup.toFinset.card :=
        Finset.card_le_card
          (fun x hx => List.mem_toFinset.mpr (hsub x (List.mem_toFinset.mp hx)))
    _ ≤ g.nodes.dedup.length := List.toFinset_card_le _

theorem dfsLoop_stack_empty (g : BiedgedGraph) : ∀ (fuel : Nat) (s : FCState),
    (univFin g s \ s.visited.toFinset).card * (g.nodes.dedup.length + 1) + s.stack.length
      < fuel →
    (dfsLoop g fuel s).stack = [] := by
  intro fuel
  induction fuel with
  | zero =>
    intro s h
    exact absurd h (Nat.not_lt_zero _)
  | succ f ih =>
    intro s hf
    rcases hst : s.stack with _ | ⟨cur, rest⟩
    · rw [dfsLoop_succ_nil g f s hst, hst]
    · rw [dfsLoop_succ_cons g f s cur rest hst]
      have hlen : s.stack.length = rest.length + 1 := by rw [hst]; rfl
      by_cases hcur : cur ∈ s.visited
      · rw [if_pos hcur]
        apply ih
        have hsub : univFin g { s with stack := rest } \ s.visited.toFinset ⊆
            univFin g s \ s.visited.toFinset := by
          apply Finset.sdiff_subset_sdiff _ (Finset.Subset.refl _)
          intro x hx
          simp only [univFin, Finset.mem_union, List.mem_toFinset] at hx ⊢
          rcases hx with (h | h) | h
          · exact Or.inl (Or.inl h)
          · exact Or.inl (Or.inr (by rw [hst]; exact List.mem_cons_of_mem _ h))
          · exact Or.inr h
        have hA := Finset.card_le_card hsub
        have hprod := Nat.mul_le_mul_right (g.nodes.dedup.length + 1) hA
        simp only at hprod ⊢
        omega
      · rw [if_neg hcur]
        apply ih
        rw [visitOne_eq]
        simp only
        set s2v : List Nat := s.visited ++ [cur] with hs2v
        set F : List Nat := freshList g cur s2v with hFdef
        have hcur_univ : cur ∈ univFin g s \ s.visited.toFinset := by
          rw [Finset.mem_sdiff]
          constructor
          · simp only [univFin, Finset.mem_union, List.mem_toFinset]
            exact Or.inl (Or.inr (by rw [hst]; exact List.mem_cons_self _ _))
          · rw [List.mem_toFinset]
            exact hcur
        have hsub : univFin g ⟨s2v, ((F.map (fun a => (a, cur))).reverse ++ s.parents),
            F.reverse ++ rest, s.cycles ++ cycAdds g cur s2v,
            s.cycleEnds ++ (backsList g cur s2v s.parents).map (fun a => (a, cur))⟩ \
              (s2v.toFinset) ⊆
            (univFin g s \ s.visited.toFinset).erase cur := by
          intro x hx
          rw [Finset.mem_sdiff] at hx
          obtain ⟨hx1, hx2⟩ := hx
          rw [List.mem_toFinset, hs2v, List.mem_append, List.mem_singleton] at hx2
          push_neg at hx2
          rw [Finset.mem_erase, Finset.mem_sdiff]
          refine ⟨hx2.2, ?_, by rw [List.mem_toFinset]; exact hx2.1⟩
          simp only [univFin, Finset.mem_union, List.mem_toFinset] at hx1 ⊢
          rcases hx1 with (h | h) | h
          · exact Or.inl (Or.inl h)
          · rw [List.mem_append, List.mem_reverse] at h
            rcases h with h | h
            · exact Or.inl (Or.inl (adjNbrs_sub_nodes (mem_freshList.mp h).1))
            · exact Or.inl (Or.inr (by rw [hst]; exact List.mem_cons_of_mem _ h))
          · rw [hs2v, List.mem_append, List.mem_singleton] at h
            rcases h with h | h
            · exact Or.inr h
            · exact absurd h hx2.2
        have hA : (univFin g ⟨s2v, ((F.map (fun a => (a, cur))).reverse ++ s.parents),
            F.reverse ++ rest, s.cycles ++ cycAdds g cur s2v,
            s.cycleEnds ++ (backsList g cur s2v s.parents).map (fun a => (a, cur))⟩ \
              s2v.toFinset).card + 1 ≤
            (univFin g s \ s.visited.toFinset).card := by
          have h1 := Finset.card_le_card hsub
          rw [Finset.card_erase_of_mem hcur_univ] at h1
          have h2 : 0 < (univFin g s \ s.visited.toFinset).card :=
            Finset.card_pos.mpr ⟨cur, hcur_univ⟩
          omega
        have hflen : F.length ≤ g.nodes.dedup.length := freshList_length_le g cur s2v
        have hstlen : (F.reverse ++ rest).length = F.length + rest.length := by
          rw [List.length_append, List.length_reverse]
        show (univFin g ⟨s2v, ((F.map (fun a => (a, cur))).reverse ++ s.parents),
            F.reverse ++ rest, s.cycles ++ cycAdds g cur s2v,
            s.cycleEnds ++ (backsList g cur s2v s.parents).map (fun a => (a, cur))⟩ \
              s2v.toFinset).card * (g.nodes.dedup.length + 1)
            + (F.reverse ++ rest).length < f
        rw [hstlen]
        have hAm : (univFin g ⟨s2v, ((F.map (fun a => (a, cur))).reverse ++ s.parents),
            F.reverse ++ rest, s.cycles ++ cycAdds g cur s2v,
            s.cycleEnds ++ (backsList g cur s2v s.parents).map (fun a => (a, cur))⟩ \
              s2v.toFinset).card + 1 ≤ (univFin g s \ s.visited.toFinset).card := hA
        generalize hA2 : (univFin g ⟨s2v, ((F.map (fun a => (a, cur))).reverse ++ s.parents),
            F.reverse ++ rest, s.cycles ++ cycAdds g cur s2v,
            s.cycleEnds ++ (backsList g cur s2v s.parents).map (fun a => (a, cur))⟩ \
              s2v.toFinset).card = A2 at hAm ⊢
        generalize hA1 : (univFin g s \ s.visited.toFinset).card = A1 at hAm hf
        have hfact : (A2 + 1) * (g.nodes.dedup.length + 1) ≤ A1 * (g.nodes.dedup.length + 1) :=
          Nat.mul_le_mul_right _ hAm
        rw [Nat.add_one_mul] at hfact
        omega

theorem dfsRunFold_facts (g : BiedgedGraph) : ∀ (l : List Nat) (s : FCState),
    DfsInv g s → s.stack = [] → (∀ x ∈ l, x ∈ g.nodes) →
    DfsInv g (l.foldl (fun s node =>
        if node ∈ s.visited then s
        else dfsLoop g (dfsFuel g { s with stack := node :: s.stack })
          { s with stack := node :: s.stack }) s) ∧
    (l.foldl (fun s node =>
        if node ∈ s.visited then s
        else dfsLoop g (dfsFuel g { s with stack := node :: s.stack })
          { s with stack := node :: s.stack }) s).stack = [] ∧
    (∀ x ∈ s.visited, x ∈ (l.foldl (fun s node =>
        if node ∈ s.visited then s
        else dfsLoop g (dfsFuel g { s with stack := node :: s.stack })
          { s with stack := node :: s.stack }) s).visited) ∧
    (∀ x ∈ l, x ∈ (l.foldl (fun s node =>
        if node ∈ s.visited then s
        else dfsLoop g (dfsFuel g { s with stack := node :: s.stack })
          { s with stack := node :: s.stack }) s).visited) := by
  intro l
  induction l with
  | nil =>
    intro s hinv hse _
    exact ⟨hinv, hse, fun x hx => hx, fun x hx => absurd hx (List.not_mem_nil x)⟩
  | cons node t ih =>
    intro s hinv hse hsub
    rw [List.foldl_cons]
    by_cases hnode : node ∈ s.visited
    · rw [if_pos hnode]
      obtain ⟨h1, h2, h3, h4⟩ := ih s hinv hse (fun x hx => hsub x (List.mem_cons_of_mem _ hx))
      refine ⟨h1, h2, h3, ?_⟩
      intro x hx
      rcases List.mem_cons.mp hx with h | h
      · exact h3 x (h ▸ hnode)
      · exact h4 x h
    · rw [if_neg hnode]
      have hinv1 : DfsInv g { s with stack := node :: s.stack } :=
        dfsInv_root g s node hinv hse (hsub node (List.mem_cons_self _ _))
      have hr_inv : DfsInv g (dfsLoop g (dfsFuel g { s with stack := node :: s.stack })
          { s with stack := node :: s.stack }) :=
        dfsLoop_inv g _ _ hinv1
      have hr_se : (dfsLoop g (dfsFuel g { s with stack := node :: s.stack })
          { s with stack := node :: s.stack }).stack = [] := by
        apply dfsLoop_stack_empty
        exact Nat.lt_succ_self _
      have hr_mono : ∀ x ∈ s.visited,
          x ∈ (dfsLoop g (dfsFuel g { s with stack := node :: s.stack })
            { s with stack := node :: s.stack }).visited := by
        intro x hx
        exact dfsLoop_visited_mono g _ _ x hx
      have hr_node : node ∈ (dfsLoop g (dfsFuel g { s with stack := node :: s.stack })
          { s with stack := node :: s.stack }).visited := by
        rcases dfsLoop_stack_absorbed g (dfsFuel g { s with stack := node :: s.stack })
            { s with stack := node :: s.stack } node
            (Or.inl (List.mem_cons_self _ _)) with h | h
        · rw [hr_se] at h
          exact absurd h (List.not_mem_nil node)
        · exact h
      obtain ⟨h1, h2, h3, h4⟩ := ih _ hr_inv hr_se
        (fun x hx => hsub x (List.mem_cons_of_mem _ hx))
      refine ⟨h1, h2, fun x hx => h3 x (hr_mono x hx), ?_⟩
      intro x hx
      rcases List.mem_cons.mp hx with h | h
      · exact h3 x (h ▸ hr_node)
      · exact h4 x h

theorem dfsRun_facts (g : BiedgedGraph) :
    DfsInv g (dfsRun g) ∧ (dfsRun g).stack = [] ∧
    ∀ x ∈ g.nodes, x ∈ (dfsRun g).visited := by
  obtain ⟨h1, h2, _, h4⟩ :=
    dfsRunFold_facts g g.nodes ⟨[], [], [], [], []⟩ (dfsInv_init g) rfl
      (fun x hx => hx)
  exact ⟨h1, h2, h4⟩

theorem chainToAux_spec (ps : List (Nat × Nat)) (V : List Nat)
    (hPV : ∀ x q, alookup ps x = some q → q ∈ V)
    (hRank : ∀ x q, x ∈ V → alookup ps x = some q → V.indexOf q < V.indexOf x)
    (start : Nat) :
    ∀ (fuel cur : Nat), cur ∈ V → Reaches ps cur start → V.indexOf cur < fuel →
    ∃ l, chainToAux ps start fuel cur = some l ∧
      List.Chain' (fun a b => alookup ps a = some b) (cur :: l) ∧
      (cur :: l).getLast? = some start := by
  intro fuel
  induction fuel with
  | zero =>
    intro cur _ _ hlt
    exact absurd hlt (Nat.not_lt_zero _)
  | succ f ih =>
    intro cur hcurV hreach hlt
    by_cases hcs : cur = start
    · refine ⟨[], by simp [chainToAux, hcs], List.chain'_singleton cur, ?_⟩
      rw [hcs]
      rfl
    · cases hreach with
      | refl => exact absurd rfl hcs
      | step hlook htail =>
        rename_i b
        have hbV := hPV cur b hlook
        have hrank := hRank cur b hcurV hlook
        obtain ⟨l, hl, hch, hlast⟩ := ih b hbV htail (by omega)
        refine ⟨b :: l, ?_, ?_, ?_⟩
        · simp [chainToAux, hcs, hlook, hl]
        · exact List.chain'_cons.mpr ⟨hlook, hch⟩
        · rw [List.getLast?_cons_cons]
          exact hlast

theorem mapM_option_spec {α β : Type} (f : α → Option β) (P : α → β → Prop) :
    ∀ l : List α, (∀ a ∈ l, ∃ b, f a = some b ∧ P a b) →
    ∃ bs, l.mapM f = some bs ∧ List.Forall₂ P l bs := by
  intro l
  induction l with
  | nil =>
    intro _
    exact ⟨[], rfl, List.Forall₂.nil⟩
  | cons a t ih =>
    intro h
    obtain ⟨b, hb, hPb⟩ := h a (List.mem_cons_self _ _)
    obtain ⟨bs, hbs, hF⟩ := ih (fun x hx => h x (List.mem_cons_of_mem _ hx))
    refine ⟨b :: bs, ?_, List.Forall₂.cons hPb hF⟩
    rw [List.mapM_cons, hb, hbs]
    rfl

theorem find_cycles_run (g : BiedgedGraph) :
    ∃ extra, find_cycles g = some ((dfsRun g).cycles ++ extra) ∧
      List.Forall₂ (fun (p : Nat × Nat) (c : List Nat) =>
        c.head? = some p.2 ∧
        List.Chain' (fun a b => alookup (dfsRun g).parents a = some b) c ∧
        c.getLast? = some p.1 ∧
        p.1 ∈ (dfsRun g).visited ∧ p.2 ∈ (dfsRun g).visited ∧ p.1 ≠ p.2 ∧
        p.1 ∈ adjNbrs g p.2 ∧ alookup (dfsRun g).parents p.2 ≠ some p.1)
        (dfsRun g).cycleEnds extra := by
  obtain ⟨hinv, hse, hall⟩ := dfsRun_facts g
  have hstep : ∀ p ∈ (dfsRun g).cycleEnds, ∃ c,
      buildCycle (dfsRun g).parents
        ((dfsRun g).parents.length + (dfsRun g).visited.length + 1) p.1 p.2 = some c ∧
      (c.head? = some p.2 ∧
        List.Chain' (fun a b => alookup (dfsRun g).parents a = some b) c ∧
        c.getLast? = some p.1 ∧
        p.1 ∈ (dfsRun g).visited ∧ p.2 ∈ (dfsRun g).visited ∧ p.1 ≠ p.2 ∧
        p.1 ∈ adjNbrs g p.2 ∧ alookup (dfsRun g).parents p.2 ≠ some p.1) := by
    intro p hp
    obtain ⟨h1, h2, h3, h4, pe, hpe, hne, hre⟩ := hinv.endsOK p hp
    have hreach : Reaches (dfsRun g).parents p.2 p.1 := Reaches.step hpe hre
    have hlt : (dfsRun g).visited.indexOf p.2 <
        (dfsRun g).parents.length + (dfsRun g).visited.length + 1 := by
      have := List.indexOf_lt_length.mpr h2
      omega
    obtain ⟨l, hl, hch, hlast⟩ := chainToAux_spec (dfsRun g).parents (dfsRun g).visited
      hinv.parentVis hinv.parentRank p.1 _ p.2 h2 hreach hlt
    refine ⟨p.2 :: l, by simp [buildCycle, hl], rfl, hch, hlast, h1, h2, h3, h4, ?_⟩
    intro hcon
    rw [hpe] at hcon
    exact hne (Option.some.inj hcon)
  obtain ⟨extra, hex, hF⟩ := mapM_option_spec
    (fun p => buildCycle (dfsRun g).parents
      ((dfsRun g).parents.length + (dfsRun g).visited.length + 1) p.1 p.2)
    (fun (p : Nat × Nat) (c : List Nat) =>
      c.head? = some p.2 ∧
      List.Chain' (fun a b => alookup (dfsRun g).parents a = some b) c ∧
      c.getLast? = some p.1 ∧
      p.1 ∈ (dfsRun g).visited ∧ p.2 ∈ (dfsRun g).visited ∧ p.1 ≠ p.2 ∧
      p.1 ∈ adjNbrs g p.2 ∧ alookup (dfsRun g).parents p.2 ≠ some p.1)
    (dfsRun g).cycleEnds hstep
  refine ⟨extra, ?_, hF⟩
  show ((dfsRun g).cycleEnds.mapM
      (fun p => buildCycle (dfsRun g).parents
        ((dfsRun g).parents.length + (dfsRun g).visited.length + 1) p.1 p.2)).map
    (fun extra => (dfsRun g).cycles ++ extra) = some ((dfsRun g).cycles ++ extra)
  rw [hex]
  rfl

/-- C5: `find_cycles` terminates on every finite input graph: the DFS phase
always empties the stack with the computed fuel, and for every recorded back
edge the parent-chasing reconstruction reaches `start` after finitely many
steps (modelled as the whole function returning `some`). -/
theorem find_cycles_total (g : BiedgedGraph) : ∃ cs, find_cycles g = some cs := by
  obtain ⟨extra, hex, _⟩ := find_cycles_run g
  exact ⟨_, hex⟩

/-- C3: for every back edge recorded during the depth-first search (an edge
from the current vertex `p.2` to an already-visited non-parent neighbour
`p.1`), the cycle emitted for it starts at `p.2`, follows recorded tree-parent
pointers at every consecutive pair, and ends at `p.1`: it is exactly the DFS
tree path between the two ends of the back edge, inclusive. -/
theorem find_cycles_back_edge_tree_path (g : BiedgedGraph) :
    ∃ extra, find_cycles g = some ((dfsRun g).cycles ++ extra) ∧
      List.Forall₂ (fun (p : Nat × Nat) (c : List Nat) =>
        c.head? = some p.2 ∧
        List.Chain' (fun a b => alookup (dfsRun g).parents a = some b) c ∧
        c.getLast? = some p.1 ∧
        p.1 ∈ (dfsRun g).visited ∧ p.2 ∈ (dfsRun g).visited ∧ p.1 ≠ p.2 ∧
        p.1 ∈ adjNbrs g p.2 ∧ alookup (dfsRun g).parents p.2 ≠ some p.1)
        (dfsRun g).cycleEnds extra :=
  find_cycles_run g

theorem forall₂_mem_right {α β : Type} {R : α → β → Prop} :
    ∀ {l₁ : List α} {l₂ : List β}, List.Forall₂ R l₁ l₂ →
      ∀ b ∈ l₂, ∃ a ∈ l₁, R a b := by
  intro l₁ l₂ h
  induction h with
  | nil =>
    intro b hb
    exact absurd hb (List.not_mem_nil b)
  | cons hR hF ih =>
    intro b hb
    rcases List.mem_cons.mp hb with h | h
    · exact ⟨_, List.mem_cons_self _ _, by rw [h]; exact hR⟩
    · obtain ⟨a, ha, hRa⟩ := ih b h
      exact ⟨a, List.mem_cons_of_mem _ ha, hRa⟩

/-- C4, counterexample to the second half of the claim: between the two
distinct vertices 0 and 1 joined by a black multiedge of multiplicity
m = 3 ≥ 2, `find_cycles` emits no length-2 cycle at all, not m - 1 = 2 of
them: the `weight.black == 2` test in the source fires only at exactly 2. -/
theorem find_cycles_pair_multiplicity_cex :
    (weightOf ⟨[0, 1], [((0, 1), ⟨3, 0⟩)]⟩ 0 1).black = 3 ∧
    (find_cycles ⟨[0, 1], [((0, 1), ⟨3, 0⟩)]⟩).map
      (fun cs => cs.count [0, 1] + cs.count [1, 0]) = some 0 := by
  exact ⟨by decide, by decide⟩

/-- C4 (amended): for every self-loop of black multiplicity m,
`find_cycles` emits exactly m copies of the self-cycle `[v, v]`, and for
every pair of distinct vertices the number of emitted length-2 cycles for
that pair is 1 when the black multiplicity is exactly 2 and 0 otherwise
(in particular it is not m - 1 for multiplicities m ≥ 3). -/
theorem find_cycles_multiplicity (g : BiedgedGraph) (cs : List (List Nat))
    (hcs : find_cycles g = some cs) :
    (∀ v ∈ g.nodes, cs.count [v, v] = (weightOf g v v).black) ∧
    (∀ u v : Nat, u ≠ v → u ∈ g.nodes → v ∈ g.nodes →
      cs.count [u, v] + cs.count [v, u] =
        if (weightOf g u v).black = 2 then 1 else 0) := by
  obtain ⟨extra, hex, hF⟩ := find_cycles_run g
  rw [hex] at hcs
  have hcseq : cs = (dfsRun g).cycles ++ extra := (Option.some.inj hcs).symm
  subst hcseq
  obtain ⟨hinv, hse, hall⟩ := dfsRun_facts g
  have hno2 : ∀ a b : Nat, [a, b] ∉ extra := by
    intro a b hmem
    obtain ⟨p, hp, hhead, hch, hlast, h4, h5, h6, h7, hnp⟩ :=
      forall₂_mem_right hF [a, b] hmem
    have ha : a = p.2 := by
      have : some a = some p.2 := hhead
      exact Option.some.inj this
    have hb : b = p.1 := by
      have : ([a, b] : List Nat).getLast? = some b := rfl
      rw [this] at hlast
      exact Option.some.inj hlast
    have hstep : alookup (dfsRun g).parents a = some b := (List.chain'_cons.mp hch).1
    rw [ha, hb] at hstep
    exact hnp hstep
  constructor
  · intro v hv
    rw [List.count_append, List.count_eq_zero_of_not_mem (hno2 v v), Nat.add_zero,
      hinv.selfCyc v, if_pos (hall v hv)]
  · intro u v huv hun hvn
    rw [List.count_append, List.count_append,
      List.count_eq_zero_of_not_mem (hno2 u v),
      List.count_eq_zero_of_not_mem (hno2 v u), Nat.add_zero, Nat.add_zero]
    have h := hinv.pairCyc u v huv hun hvn
    by_cases hB : (weightOf g u v).black = 2
    · rw [if_pos (⟨Or.inl (hall u hun), hB⟩ :
        (u ∈ (dfsRun g).visited ∨ v ∈ (dfsRun g).visited) ∧
          (weightOf g u v).black = 2)] at h
      rw [h, if_pos hB]
    · rw [if_neg (fun hc : (u ∈ (dfsRun g).visited ∨ v ∈ (dfsRun g).visited) ∧
        (weightOf g u v).black = 2 => hB hc.2)] at h
      rw [h, if_neg hB]

/-- Witness for the amended C4 theorem at a concrete graph with a black
self-loop of multiplicity 2 at vertex 0 and a black multiedge of
multiplicity 2 between 0 and 1. -/
theorem find_cycles_multiplicity_witness :
    ([[0, 0], [0, 0], [0, 1]] : List (List Nat)).count [0, 0] =
      (weightOf ⟨[0, 1], [((0, 0), ⟨2, 0⟩), ((0, 1), ⟨2, 0⟩)]⟩ 0 0).black ∧
    ([[0, 0], [0, 0], [0, 1]] : List (List Nat)).count [0, 1] +
      ([[0, 0], [0, 0], [0, 1]] : List (List Nat)).count [1, 0] =
      (if (weightOf ⟨[0, 1], [((0, 0), ⟨2, 0⟩), ((0, 1), ⟨2, 0⟩)]⟩ 0 1).black = 2
        then 1 else 0) :=
  ⟨(find_cycles_multiplicity ⟨[0, 1], [((0, 0), ⟨2, 0⟩), ((0, 1), ⟨2, 0⟩)]⟩
      [[0, 0], [0, 0], [0, 1]] (by decide)).1 0 (by decide),
   (find_cycles_multiplicity ⟨[0, 1], [((0, 0), ⟨2, 0⟩), ((0, 1), ⟨2, 0⟩)]⟩
      [[0, 0], [0, 0], [0, 1]] (by decide)).2 0 1 (by decide) (by decide) (by decide)⟩

theorem adjNbrs_congr (g₁ g₂ : BiedgedGraph) (hn : g₁.nodes = g₂.nodes)
    (hw : ∀ u v, weightOf g₁ u v = weightOf g₂ u v) (v : Nat) :
    adjNbrs g₁ v = adjNbrs g₂ v := by
  unfold adjNbrs
  rw [hn]
  congr 1
  apply List.filter_congr
  intro u _
  simp [hw v u]

theorem visitOne_congr (g₁ g₂ : BiedgedGraph) (hn : g₁.nodes = g₂.nodes)
    (hw : ∀ u v, weightOf g₁ u v = weightOf g₂ u v) (cur : Nat) (s : FCState) :
    visitOne g₁ cur s = visitOne g₂ cur s := by
  unfold visitOne
  rw [adjNbrs_congr g₁ g₂ hn hw cur]
  apply List.foldl_ext
  intro st adj _
  simp only [hw]

theorem dfsLoop_congr (g₁ g₂ : BiedgedGraph) (hn : g₁.nodes = g₂.nodes)
    (hw : ∀ u v, weightOf g₁ u v = weightOf g₂ u v) :
    ∀ (fuel : Nat) (s : FCState), dfsLoop g₁ fuel s = dfsLoop g₂ fuel s := by
  intro fuel
  induction fuel with
  | zero => intro s; rfl
  | succ f ih =>
    intro s
    rcases hst : s.stack with _ | ⟨cur, rest⟩
    · rw [dfsLoop_succ_nil g₁ f s hst, dfsLoop_succ_nil g₂ f s hst]
    · rw [dfsLoop_succ_cons g₁ f s cur rest hst, dfsLoop_succ_cons g₂ f s cur rest hst]
      by_cases hcur : cur ∈ s.visited
      · rw [if_pos hcur, if_pos hcur]
        exact ih _
      · rw [if_neg hcur, if_neg hcur, visitOne_congr g₁ g₂ hn hw]
        exact ih _

theorem dfsFuel_congr (g₁ g₂ : BiedgedGraph) (hn : g₁.nodes = g₂.nodes)
    (s : FCState) : dfsFuel g₁ s = dfsFuel g₂ s := by
  unfold dfsFuel univFin
  rw [hn]

theorem dfsRun_congr (g₁ g₂ : BiedgedGraph) (hn : g₁.nodes = g₂.nodes)
    (hw : ∀ u v, weightOf g₁ u v = weightOf g₂ u v) :
    dfsRun g₁ = dfsRun g₂ := by
  unfold dfsRun
  rw [hn]
  apply List.foldl_ext
  intro s node _
  by_cases hmem : node ∈ s.visited
  · rw [if_pos hmem, if_pos hmem]
  · rw [if_neg hmem, if_neg hmem, dfsFuel_congr g₁ g₂ hn, dfsLoop_congr g₁ g₂ hn hw]

theorem find_cycles_congr (g₁ g₂ : BiedgedGraph) (hn : g₁.nodes = g₂.nodes)
    (hw : ∀ u v, weightOf g₁ u v = weightOf g₂ u v) :
    find_cycles g₁ = find_cycles g₂ := by
  unfold find_cycles
  rw [dfsRun_congr g₁ g₂ hn hw]

/-- C9: the DFS of `find_cycles` examines the neighbours of every vertex in
ascending endpoint order, and the returned cycle list is a deterministic
function of the input graph alone: it depends only on the vertex list and
the total endpoint-pair weights, never on the order or orientation of the
stored edge records. -/
theorem find_cycles_deterministic (g₁ g₂ : BiedgedGraph)
    (hn : g₁.nodes = g₂.nodes)
    (hw : ∀ u v, weightOf g₁ u v = weightOf g₂ u v) :
    (∀ v, (adjNbrs g₁ v).Sorted (· ≤ ·)) ∧ find_cycles g₁ = find_cycles g₂ :=
  ⟨fun v => adjNbrs_sorted g₁ v, find_cycles_congr g₁ g₂ hn hw⟩

/-- Witness for C9 at two concrete representations of the same graph whose
single edge record is stored with opposite orientations. -/
theorem find_cycles_deterministic_witness :
    (adjNbrs ⟨[0, 1], [((1, 0), ⟨1, 0⟩)]⟩ 0).Sorted (· ≤ ·) ∧
    find_cycles ⟨[0, 1], [((1, 0), ⟨1, 0⟩)]⟩ =
      find_cycles ⟨[0, 1], [((0, 1), ⟨1, 0⟩)]⟩ := by
  have hw : ∀ u v, weightOf ⟨[0, 1], [((1, 0), ⟨1, 0⟩)]⟩ u v =
      weightOf ⟨[0, 1], [((0, 1), ⟨1, 0⟩)]⟩ u v := by
    intro u v
    have hiff : pairMatch u v ((1, 0), (⟨1, 0⟩ : BiedgedWeight)) ↔
        pairMatch u v ((0, 1), (⟨1, 0⟩ : BiedgedWeight)) := by
      unfold pairMatch
      tauto
    by_cases h : pairMatch u v ((1, 0), (⟨1, 0⟩ : BiedgedWeight))
    · have h2 := hiff.mp h
      simp [weightOf, List.filter, h, h2]
    · have h2 : ¬ pairMatch u v ((0, 1), (⟨1, 0⟩ : BiedgedWeight)) :=
        fun hh => h (hiff.mpr hh)
      simp [weightOf, List.filter, decide_eq_false h, decide_eq_false h2]
  exact ⟨(find_cycles_deterministic ⟨[0, 1], [((1, 0), ⟨1, 0⟩)]⟩
      ⟨[0, 1], [((0, 1), ⟨1, 0⟩)]⟩ rfl hw).1 0,
    (find_cycles_deterministic ⟨[0, 1], [((1, 0), ⟨1, 0⟩)]⟩
      ⟨[0, 1], [((0, 1), ⟨1, 0⟩)]⟩ rfl hw).2⟩
